import Mathlib

/-!
Verification of the RF103 host driver library against its specification.

The development shallowly embeds the relevant C sources:

* `src/clock_source.c` — Si5351 clock synthesizer programming: the R-divider
  selection loop, the output multisynth choice, and the best-rational-
  approximation walk over continued-fraction semiconvergents;
* `src/firmware.c` — FX3 firmware image validation and transfer;
* `src/tuner.c` — R820T2 tuner: register shadow with a dirty mask, field
  descriptors, PLL parameter computation with boundary-spur prevention,
  IF-filter calibration, and the public gain/AGC setters.

Modelling conventions:

* C `double` arithmetic is idealized as exact rational arithmetic (`ℚ`);
* machine integers are `ℕ` with explicit truncation `w32`/`% 256` at the
  points where the C code stores into `uint32_t`/`uint8_t`;
* every C loop becomes structural recursion on an explicit fuel argument,
  with the C loop condition kept verbatim; the fuel is chosen to dominate
  the C iteration count, so it never runs out on the C executions;
* I2C / USB transfers are modelled as always succeeding, with device read
  data supplied by oracle functions; fallible computations return `Option`.
-/

namespace RF103

/-- Truncation to 32 bits: the effect of storing into a C `uint32_t`. -/
def w32 (n : ℕ) : ℕ := n % 4294967296

/-! ## Clock synthesizer (`src/clock_source.c`)

Constants from the top of `clock_source.c`. The crystal frequency and the
frequency correction live in the `clock_source` state; `clock_source_open`
initializes them to `SI5351_FREQ` and `SI5351_FREQ_CORR` and nothing in the
library changes them, so the model passes them as explicit parameters and
the concrete theorems instantiate them with the defaults. -/

def SI5351_FREQ : ℚ := 27000000

def SI5351_FREQ_CORR : ℚ := 9999314 / 10000000

def SI5351_MAX_VCO_FREQ : ℚ := 900000000

def SI5351_MAX_DENOMINATOR : ℕ := 1048575

/-- The R-divider loop of `clock_source_set_clock` (lines 158-163):
`while (r_frequency < 1e6 && rdiv <= 7) { r_frequency *= 2.0; rdiv += 1; }`.
The fuel argument only serves structural termination; the C condition
`rdiv <= 7` bounds the iteration count by `8 - rdiv`, so any fuel of at
least 9 gives the exact C behavior. -/
def rdiv_loop : ℕ → ℚ → ℕ → ℚ × ℕ
  | 0, r_frequency, rdiv => (r_frequency, rdiv)
  | fuel + 1, r_frequency, rdiv =>
    if r_frequency < 1000000 ∧ rdiv ≤ 7 then rdiv_loop fuel (2 * r_frequency) (rdiv + 1)
    else (r_frequency, rdiv)

/-- Inner loop of `rational_approximation` (lines 264-276): the scan over
semiconvergents `m ∈ [(an+1)/2, an]`, keeping the best `(b, c)` found so
far together with its distance `delta` from the fractional part `f0`.
`h0, h1, k0, k1` are the uint32 convergent state `h[0], h[1], k[0], k[1]`.
Fuel `an + 1 - m` makes the recursion structural; the C exit condition
`m > an` and the `km > max_denominator` break are kept verbatim. -/
def ra_inner (f0 : ℚ) (maxDen h0 h1 k0 k1 an : ℕ) :
    ℕ → ℕ → ℕ → ℕ → ℚ → ℕ × ℕ × ℚ
  | 0, _, b, c, delta => (b, c, delta)
  | fuel + 1, m, b, c, delta =>
    if m > an then (b, c, delta)
    else
      let hm := w32 (m * h1 + h0)
      let km := w32 (m * k1 + k0)
      if km > maxDen then (b, c, delta)
      else if |(hm : ℚ) / (km : ℚ) - f0| < delta then
        ra_inner f0 maxDen h0 h1 k0 k1 an fuel (m + 1) hm km |(hm : ℚ) / (km : ℚ) - f0|
      else
        ra_inner f0 maxDen h0 h1 k0 k1 an fuel (m + 1) b c delta

/-- State of the outer loop of `rational_approximation`: the remaining
fractional part `f`, the convergent numerators and denominators
(`h[0], h[1], k[0], k[1]` in the C code), and the best approximation
`b / c` found so far with its distance `delta` from `f0`. -/
structure RAState where
  f : ℚ
  h0 : ℕ
  h1 : ℕ
  k0 : ℕ
  k1 : ℕ
  b : ℕ
  c : ℕ
  delta : ℚ

/-- Outer loop of `rational_approximation` (lines 257-281): up to 100
continued-fraction steps, stopping when the remaining fractional part `f`
drops to `epsilon = 1e-5` or below.  Each step computes the next partial
quotient `an = (uint32_t)⌊1/f⌋`, runs the semiconvergent scan `ra_inner`
starting at `m = (an+1)/2` (its fuel `an + 1 - (an+1)/2` covers every
`m ≤ an`), and advances the convergent pairs. -/
def ra_loop (f0 : ℚ) (maxDen : ℕ) : ℕ → RAState → RAState
  | 0, st => st
  | n + 1, st =>
    if st.f ≤ 1 / 100000 then st
    else
      let an := (⌊1 / st.f⌋).toNat
      let fn := 1 / st.f - an
      let t := ra_inner f0 maxDen st.h0 st.h1 st.k0 st.k1 an (an + 1 - (an + 1) / 2)
        ((an + 1) / 2) st.b st.c st.delta
      ra_loop f0 maxDen n
        ⟨fn, st.h1, w32 (an * st.h1 + st.h0), st.k1, w32 (an * st.k1 + st.k0),
         t.1, t.2.1, t.2.2⟩

/-- `rational_approximation` (lines 242-283): best rational approximation
`value ≈ a + b/c` with `c ≤ max_denominator`, via `modf` split into the
integer part `a` and fractional part `f0`, initial best `b = 0, c = 1`
with `delta = f0`, initial convergent state `h = {1, 0}`, `k = {0, 1}`. -/
def rational_approximation (value : ℚ) (maxDen : ℕ) : ℕ × ℕ × ℕ :=
  let a := (⌊value⌋).toNat
  let f0 := value - ⌊value⌋
  let st := ra_loop f0 maxDen 100 ⟨f0, 1, 0, 0, 1, 0, 1, f0⟩
  (a, st.b, st.c)

/-- The synthesizer parameters `clock_source_set_clock` chooses for one
output: the R-divider exponent, the even output multisynth divider, and
the feedback fraction `a + b/c`. -/
structure ClockParams where
  rdiv : ℕ
  output_ms : ℕ
  a : ℕ
  b : ℕ
  c : ℕ

/-- The parameter computation of `clock_source_set_clock` (lines 150-207).
I2C register programming (`configure_clock_input_and_pll`,
`configure_clock_output`, `reset_pll_and_clock_power_up`) is modelled as
always succeeding, so the function returns the chosen parameters, or
`none` on the two error paths (frequency too low after the R-divider,
output multisynth out of `[4, 2048]`).  The `index` argument only selects
which registers are written and is dropped.  The C cast
`(uint32_t)(SI5351_MAX_VCO_FREQ / r_frequency)` truncates a positive
double, i.e. takes the floor, and `&= ~0x01` clears the low bit. -/
def clock_source_set_clock (crystal_frequency frequency_correction : ℚ)
    (frequency : ℚ) : Option ClockParams :=
  let rf := rdiv_loop 9 frequency 0
  let r_frequency := rf.1
  let rdiv := rf.2
  if r_frequency < 1000000 then none
  else
    let output_ms := (⌊SI5351_MAX_VCO_FREQ / r_frequency⌋).toNat &&& 4294967294
    let vco_frequency := r_frequency * output_ms
    if output_ms < 4 ∨ output_ms > 2048 then none
    else
      let feedback_ms := vco_frequency / (crystal_frequency / frequency_correction)
      let t := rational_approximation feedback_ms SI5351_MAX_DENOMINATOR
      some ⟨rdiv, output_ms, t.1, t.2.1, t.2.2⟩

/-- The feedback multisynth value `FB` of the specification: the exact
value `clock_source_set_clock` passes to `rational_approximation`,
reconstructed from the same expressions of the source
(`vco_frequency / (crystal_frequency / frequency_correction)`). -/
def set_clock_feedback (crystal_frequency frequency_correction : ℚ)
    (frequency : ℚ) : ℚ :=
  let rf := rdiv_loop 9 frequency 0
  let output_ms := (⌊SI5351_MAX_VCO_FREQ / rf.1⌋).toNat &&& 4294967294
  rf.1 * output_ms / (crystal_frequency / frequency_correction)

/-- Invariant of the best approximation kept by `rational_approximation`:
`b / c` is a fraction with denominator in `[1, max_denominator]` at
distance `delta < 1/c` from the fractional part `f0`, and `delta` never
exceeds its initial value `f0`. -/
def ra_ok (f0 : ℚ) (maxDen b c : ℕ) (delta : ℚ) : Prop :=
  1 ≤ c ∧ c ≤ maxDen ∧ delta = |(b : ℚ) / c - f0| ∧ delta < 1 / c ∧ delta ≤ f0

/-- The exact phase of `rational_approximation`: as long as no `uint32`
computation has wrapped, the stored convergent state is the true one and
satisfies the continued-fraction identities — the fractional-part identity
linking `(h, k)` and the remainder `f` to `f0`, the `±1` determinant, the
numerator-below-denominator comparison, and the quantitative invariant
`delta · k1 · (k1 + k0·f) ≤ f` (the best distance found is no worse than
the current convergent's error). -/
def ra_exact (f0 : ℚ) (st : RAState) : Prop :=
  f0 * ((st.k1 : ℚ) + st.k0 * st.f) = (st.h1 : ℚ) + st.h0 * st.f ∧
  (st.h1 * st.k0 + 1 = st.h0 * st.k1 ∨ st.h0 * st.k1 + 1 = st.h1 * st.k0) ∧
  1 ≤ st.k1 ∧
  ((st.h0 ≤ st.k0 ∧ st.h1 ≤ st.k1) ∨
    (st.h0 = 1 ∧ st.k0 = 0 ∧ st.h1 = 0 ∧ st.k1 = 1)) ∧
  st.delta * ((st.k1 : ℚ) * ((st.k1 : ℚ) + (st.k0 : ℚ) * st.f)) ≤ st.f

/-- Full loop invariant of `rational_approximation`, with no assumption on
the size of the fractional part's denominator: the remainder stays in
`[0, 1)`, the best approximation invariant holds, and either the best
distance has already dropped below `1 / max_denominator` (after which no
accepted candidate — wrapped or not — can break the `1/c` bound), or the
state is still in the exact phase. -/
def ra_uinv (f0 : ℚ) (maxDen : ℕ) (st : RAState) : Prop :=
  0 ≤ st.f ∧ st.f < 1 ∧
  ra_ok f0 maxDen st.b st.c st.delta ∧
  (st.delta < 1 / (maxDen : ℚ) ∨ ra_exact f0 st)

/-! ## Firmware loader (`src/firmware.c`)

A firmware image is its file contents, a list of bytes.  The C code walks
it as 32-bit little-endian words (`uint32_t *`); `read_word` reads the word
at a byte offset, `none` when the read would leave the buffer (in C that
read is out of bounds).  `validate_image` returns `some true` for an
accepted image, `some false` for a rejected one, and `none` when the C
walk would read out of bounds (undefined behavior, reachable only for
malformed inputs). -/

/-- The 32-bit little-endian word at byte offset `p` of the image. -/
def read_word (image : List ℕ) (p : ℕ) : Option ℕ :=
  if p + 4 ≤ image.length then
    some (image.getD p 0 + 256 * image.getD (p + 1) 0 + 65536 * image.getD (p + 2) 0 +
      16777216 * image.getD (p + 3) 0)
  else none

/-- Payload summation of `validate_image` (lines 132-134):
`while (loadSz--) checksum += *current++;` — a 32-bit wraparound sum of
`count` words starting at byte offset `p`. -/
def sum_payload (image : List ℕ) : ℕ → ℕ → ℕ → Option ℕ
  | 0, _, checksum => some checksum
  | count + 1, p, checksum =>
    match read_word image p with
    | none => none
    | some word => sum_payload image count (p + 4) (w32 (checksum + word))

/-- The section walk of `validate_image` (lines 116-147).  `p` is the byte
offset of the next `loadSz` word; `current + loadSz >= end - 2` becomes
`p + 8 + 4*loadSz + 8 ≥ image.length` in byte offsets.  After the
`loadSz = 0` terminator the entry address and the expected checksum are
read; a file longer than the accounted-for range (`current != end`) only
produces a recoverable warning, so acceptance is exactly the checksum
comparison. -/
def validate_sections (image : List ℕ) : ℕ → ℕ → ℕ → Option Bool
  | 0, _, _ => none
  | fuel + 1, p, checksum =>
    match read_word image p with
    | none => none
    | some loadSz =>
      if loadSz = 0 then
        match read_word image (p + 4) with
        | none => none
        | some _entryAddr =>
          match read_word image (p + 8) with
          | none => none
          | some expected_checksum => some (decide (checksum = expected_checksum))
      else
        match read_word image (p + 4) with
        | none => none
        | some _secStart =>
          if p + 8 + 4 * loadSz + 8 ≥ image.length then some false
          else
            match sum_payload image loadSz (p + 8) checksum with
            | none => none
            | some checksum => validate_sections image fuel (p + 8 + 4 * loadSz) checksum

/-- `validate_image` (lines 97-148): size check, the four magic bytes
`'C' = 67`, `'Y' = 89`, `0x1C = 28`, `0xB0 = 176`, then the section walk
starting at byte offset 4 with checksum 0.  The fuel `image.length` never
runs out: each walk step advances `p` by at least 12 bytes. -/
def validate_image (image : List ℕ) : Option Bool :=
  if image.length < 10240 then some false
  else if ¬(image.getD 0 0 = 67 ∧ image.getD 1 0 = 89) then some false
  else if image.getD 2 0 ≠ 28 then some false
  else if image.getD 3 0 ≠ 176 then some false
  else validate_sections image image.length 4 0

/-- The claim's acceptance conditions, written from the specification's
words for comparison with `validate_image`: walk the sections; a declared
section's payload must not extend past `size - 8` (the entry + checksum
trailer); after the `loadSz = 0` terminator a 32-bit entry address and a
32-bit expected checksum follow (they must lie within the image to be
read); a file longer than the accounted-for range is still acceptable.
Returns the accumulated wraparound sum and the expected checksum. -/
def spec_walk (image : List ℕ) : ℕ → ℕ → ℕ → Option (ℕ × ℕ)
  | 0, _, _ => none
  | fuel + 1, p, checksum =>
    match read_word image p with
    | none => none
    | some loadSz =>
      if loadSz = 0 then
        match read_word image (p + 4), read_word image (p + 8) with
        | some _entryAddr, some expected_checksum => some (checksum, expected_checksum)
        | _, _ => none
      else
        match read_word image (p + 4) with
        | none => none
        | some _secStart =>
          if p + 8 + 4 * loadSz + 8 > image.length then none
          else
            match sum_payload image loadSz (p + 8) checksum with
            | none => none
            | some checksum => spec_walk image fuel (p + 8 + 4 * loadSz) checksum

/-- The claim's statement of when `validate_image` accepts: size at least
10240, the four magic bytes, every section in bounds, and the computed
32-bit wraparound sum equal to the trailing checksum word. -/
def spec_accepts (image : List ℕ) : Prop :=
  10240 ≤ image.length ∧
  image.getD 0 0 = 67 ∧ image.getD 1 0 = 89 ∧ image.getD 2 0 = 28 ∧ image.getD 3 0 = 176 ∧
  ∃ s e, spec_walk image image.length 4 0 = some (s, e) ∧ s = e

/-- The little-endian bytes of a 32-bit word, for building firmware images
in concrete statements. -/
def word_bytes (w : ℕ) : List ℕ :=
  [w % 256, w / 256 % 256, w / 65536 % 256, w / 16777216 % 256]

/-- A firmware image with the magic header, one declared section of a
single payload word `W` at section address `A`, the `loadSz = 0`
terminator, entry address `E`, trailing checksum word `C`, and `pad` extra
bytes (the file may be longer than the accounted-for range). -/
def single_word_image (A W E C : ℕ) (pad : List ℕ) : List ℕ :=
  [67, 89, 28, 176] ++ word_bytes 1 ++ word_bytes A ++ word_bytes W ++
    word_bytes 0 ++ word_bytes E ++ word_bytes C ++ pad

/-! ### Firmware transfer (`transfer_image`, lines 150-201)

The USB control transfers are modelled by an oracle: `oracle k` is the
return value of the `k`-th `libusb_control_transfer` call of the run.  The
chunk loop requests `wLength = min nleft 2048` bytes per call; a negative
return is an error and a return different from `wLength` is a short
transfer, both fatal inside a section. -/

/-- Result of the section-transfer walk: `oob` when the C code would read
past the image buffer (undefined behavior), `fail` when a section transfer
failed (return -1), `done p k` when the `loadSz = 0` terminator was found
at byte offset `p` with `k` transfers performed. -/
inductive TransferStep where
  | oob : TransferStep
  | fail : TransferStep
  | done (p k : ℕ) : TransferStep
deriving DecidableEq

/-- The per-section chunk loop of `transfer_image` (lines 169-184):
transfers of at most 2048 bytes until `nleft` is exhausted; returns the
next transfer index, or `none` on a failed or short transfer.  Fuel at
least `nleft` gives the exact C behavior. -/
def chunk_loop (oracle : ℕ → ℤ) : ℕ → ℕ → ℕ → Option ℕ
  | 0, k, nleft => if nleft = 0 then some k else none
  | fuel + 1, k, nleft =>
    if nleft = 0 then some k
    else
      let wLength : ℕ := if nleft > 2048 then 2048 else nleft
      if oracle k < 0 then none
      else if oracle k ≠ (wLength : ℤ) then none
      else chunk_loop oracle fuel (k + 1) (nleft - wLength)

/-- The section walk of `transfer_image` (lines 161-186): for each section
read `loadSz` and the target address, transfer `4 * loadSz` payload bytes
in chunks, stop at the `loadSz = 0` terminator. -/
def transfer_sections (image : List ℕ) (oracle : ℕ → ℤ) : ℕ → ℕ → ℕ → TransferStep
  | 0, _, _ => .oob
  | fuel + 1, p, k =>
    match read_word image p with
    | none => .oob
    | some loadSz =>
      if loadSz = 0 then .done p k
      else
        match read_word image (p + 4) with
        | none => .oob
        | some _address =>
          if image.length < p + 8 + 4 * loadSz then .oob
          else
            match chunk_loop oracle (4 * loadSz) k (4 * loadSz) with
            | none => .fail
            | some k => transfer_sections image oracle fuel (p + 8 + 4 * loadSz) k

/-- `transfer_image` (lines 150-201): walk and transfer the sections, then
read the entry address and the checksum word, sleep, and issue the final
zero-length transfer to the entry address.  The final transfer's result is
only checked for a warning (`usb_warning`), so the function returns 0 no
matter what the oracle answers for it.  `none` models an out-of-bounds
read (undefined behavior). -/
def transfer_image (image : List ℕ) (oracle : ℕ → ℤ) : Option ℤ :=
  match transfer_sections image oracle image.length 4 0 with
  | .oob => none
  | .fail => some (-1)
  | .done p _k =>
    match read_word image (p + 4), read_word image (p + 8) with
    | some _entryAddr, some _checksum => some 0
    | _, _ => none

/-- `load_image` (lines 41-95) after the file has been slurped into
memory: validate, then transfer; either failure gives -1. -/
def load_image (image : List ℕ) (oracle : ℕ → ℤ) : Option ℤ :=
  match validate_image image with
  | some true => transfer_image image oracle
  | some false => some (-1)
  | none => none

/-- The lengths of the chunk transfers `transfer_image` will request for
one section payload of `nleft` bytes. -/
def chunk_plan_loop : ℕ → ℕ → List ℕ
  | 0, _ => []
  | fuel + 1, nleft =>
    if nleft = 0 then []
    else
      let wLength : ℕ := if nleft > 2048 then 2048 else nleft
      wLength :: chunk_plan_loop fuel (nleft - wLength)

/-- The lengths of all section chunk transfers `transfer_image` will
request for the image, in order; `none` when the walk leaves the buffer. -/
def chunk_plan (image : List ℕ) : ℕ → ℕ → Option (List ℕ)
  | 0, _ => none
  | fuel + 1, p =>
    match read_word image p with
    | none => none
    | some loadSz =>
      if loadSz = 0 then
        match read_word image (p + 4), read_word image (p + 8) with
        | some _entryAddr, some _checksum => some []
        | _, _ => none
      else
        match read_word image (p + 4) with
        | none => none
        | some _address =>
          if image.length < p + 8 + 4 * loadSz then none
          else
            match chunk_plan image fuel (p + 8 + 4 * loadSz) with
            | none => none
            | some rest => some (chunk_plan_loop (4 * loadSz) (4 * loadSz) ++ rest)

/-! ## Tuner (`src/tuner.c`)

The R820T2 register map: a field descriptor is the three-element array
`{reg, mask, shift}` of the C source. -/

/-- A field descriptor `(reg, mask, shift)` of the R820T2 register matrix. -/
structure TunerField where
  reg : ℕ
  mask : ℕ
  shift : ℕ
deriving DecidableEq

def R820T2_VCO_INDICATOR : TunerField := ⟨0x02, 0x7f, 0⟩
def R820T2_RF_INDICATOR : TunerField := ⟨0x03, 0xff, 0⟩
def R820T2_FIL_CAL_CODE : TunerField := ⟨0x04, 0x0f, 0⟩
def R820T2_PWD_LT : TunerField := ⟨0x05, 0x80, 7⟩
def R820T2_PWD_LNA1 : TunerField := ⟨0x05, 0x20, 5⟩
def R820T2_LNA_GAIN_MODE : TunerField := ⟨0x05, 0x10, 4⟩
def R820T2_LNA_GAIN : TunerField := ⟨0x05, 0x0f, 0⟩
def R820T2_PWD_PDET1 : TunerField := ⟨0x06, 0x80, 7⟩
def R820T2_PWD_PDET3 : TunerField := ⟨0x06, 0x40, 6⟩
def R820T2_FILT_3DB : TunerField := ⟨0x06, 0x20, 5⟩
def R820T2_PW_LNA : TunerField := ⟨0x06, 0x07, 0⟩
def R820T2_PWD_MIX : TunerField := ⟨0x07, 0x40, 6⟩
def R820T2_PW0_MIX : TunerField := ⟨0x07, 0x20, 5⟩
def R820T2_MIXGAIN_MODE : TunerField := ⟨0x07, 0x10, 4⟩
def R820T2_MIX_GAIN : TunerField := ⟨0x07, 0x0f, 0⟩
def R820T2_PWD_AMP : TunerField := ⟨0x08, 0x80, 7⟩
def R820T2_PW0_AMP : TunerField := ⟨0x08, 0x40, 6⟩
def R820T2_IMR_G : TunerField := ⟨0x08, 0x3f, 0⟩
def R820T2_PWD_IFFILT : TunerField := ⟨0x09, 0x80, 7⟩
def R820T2_PW1_IFFILT : TunerField := ⟨0x09, 0x40, 6⟩
def R820T2_IMR_P : TunerField := ⟨0x09, 0x3f, 0⟩
def R820T2_PWD_FILT : TunerField := ⟨0x0a, 0x80, 7⟩
def R820T2_PW_FILT : TunerField := ⟨0x0a, 0x60, 5⟩
def R820T2_FILT_CODE : TunerField := ⟨0x0a, 0x0f, 0⟩
def R820T2_FILT_BW : TunerField := ⟨0x0b, 0xe0, 5⟩
def R820T2_FILT_CAP : TunerField := ⟨0x0b, 0x60, 5⟩
def R820T2_CAL_TRIGGER : TunerField := ⟨0x0b, 0x10, 4⟩
def R820T2_HPF : TunerField := ⟨0x0b, 0x0f, 0⟩
def R820T2_PWD_VGA : TunerField := ⟨0x0c, 0x40, 6⟩
def R820T2_VGA_MODE : TunerField := ⟨0x0c, 0x10, 4⟩
def R820T2_VGA_CODE : TunerField := ⟨0x0c, 0x0f, 0⟩
def R820T2_LNA_VTHH : TunerField := ⟨0x0d, 0xf0, 4⟩
def R820T2_LNA_VTHL : TunerField := ⟨0x0d, 0x0f, 0⟩
def R820T2_MIX_VTH_H : TunerField := ⟨0x0e, 0xf0, 4⟩
def R820T2_MIX_VTH_L : TunerField := ⟨0x0e, 0x0f, 0⟩
def R820T2_CLK_OUT_ENB : TunerField := ⟨0x0f, 0x10, 4⟩
def R820T2_CALI_CLK : TunerField := ⟨0x0f, 0x04, 2⟩
def R820T2_CLK_AGC_ENB : TunerField := ⟨0x0f, 0x02, 1⟩
def R820T2_SEL_DIV : TunerField := ⟨0x10, 0xe0, 5⟩
def R820T2_REFDIV : TunerField := ⟨0x10, 0x10, 4⟩
def R820T2_XTAL_DRIVE : TunerField := ⟨0x10, 0x08, 3⟩
def R820T2_CAPX : TunerField := ⟨0x10, 0x03, 0⟩
def R820T2_PW_LDO_A : TunerField := ⟨0x11, 0xc0, 6⟩
def R820T2_VCO_CURRENT : TunerField := ⟨0x12, 0xe0, 5⟩
def R820T2_PW_SDM : TunerField := ⟨0x12, 0x08, 3⟩
def R820T2_SI2C : TunerField := ⟨0x14, 0xc0, 6⟩
def R820T2_NI2C : TunerField := ⟨0x14, 0x3f, 0⟩
def R820T2_SDM_INL : TunerField := ⟨0x15, 0xff, 0⟩
def R820T2_SDM_INH : TunerField := ⟨0x16, 0xff, 0⟩
def R820T2_PW_LDO_D : TunerField := ⟨0x17, 0xc0, 6⟩
def R820T2_OPEN_D : TunerField := ⟨0x17, 0x08, 3⟩
def R820T2_PWD_RFFILT : TunerField := ⟨0x19, 0x80, 7⟩
def R820T2_SW_AGC : TunerField := ⟨0x19, 0x10, 4⟩
def R820T2_RFMUX : TunerField := ⟨0x1a, 0xc0, 6⟩
def R820T2_PLL_AUTO_CLK : TunerField := ⟨0x1a, 0x0c, 2⟩
def R820T2_RFFILT : TunerField := ⟨0x1a, 0x03, 0⟩
def R820T2_TF_NCH : TunerField := ⟨0x1b, 0xf0, 4⟩
def R820T2_TF_LP : TunerField := ⟨0x1b, 0x0f, 0⟩
def R820T2_PDET3_GAIN : TunerField := ⟨0x1c, 0xf0, 4⟩
def R820T2_PDET1_GAIN : TunerField := ⟨0x1d, 0x38, 3⟩
def R820T2_PDET2_GAIN : TunerField := ⟨0x1d, 0x07, 0⟩
def R820T2_PDET_CLK : TunerField := ⟨0x1e, 0x3f, 0⟩
def R820T2_FILT_EXT : TunerField := ⟨0x1e, 0x40, 6⟩

/-- The full register matrix of `tuner.c` (lines 122-184), as a list. -/
def R820T2_register_matrix : List TunerField :=
  [R820T2_VCO_INDICATOR, R820T2_RF_INDICATOR, R820T2_FIL_CAL_CODE, R820T2_PWD_LT,
   R820T2_PWD_LNA1, R820T2_LNA_GAIN_MODE, R820T2_LNA_GAIN, R820T2_PWD_PDET1,
   R820T2_PWD_PDET3, R820T2_FILT_3DB, R820T2_PW_LNA, R820T2_PWD_MIX, R820T2_PW0_MIX,
   R820T2_MIXGAIN_MODE, R820T2_MIX_GAIN, R820T2_PWD_AMP, R820T2_PW0_AMP, R820T2_IMR_G,
   R820T2_PWD_IFFILT, R820T2_PW1_IFFILT, R820T2_IMR_P, R820T2_PWD_FILT, R820T2_PW_FILT,
   R820T2_FILT_CODE, R820T2_FILT_BW, R820T2_FILT_CAP, R820T2_CAL_TRIGGER, R820T2_HPF,
   R820T2_PWD_VGA, R820T2_VGA_MODE, R820T2_VGA_CODE, R820T2_LNA_VTHH, R820T2_LNA_VTHL,
   R820T2_MIX_VTH_H, R820T2_MIX_VTH_L, R820T2_CLK_OUT_ENB, R820T2_CALI_CLK,
   R820T2_CLK_AGC_ENB, R820T2_SEL_DIV, R820T2_REFDIV, R820T2_XTAL_DRIVE, R820T2_CAPX,
   R820T2_PW_LDO_A, R820T2_VCO_CURRENT, R820T2_PW_SDM, R820T2_SI2C, R820T2_NI2C,
   R820T2_SDM_INL, R820T2_SDM_INH, R820T2_PW_LDO_D, R820T2_OPEN_D, R820T2_PWD_RFFILT,
   R820T2_SW_AGC, R820T2_RFMUX, R820T2_PLL_AUTO_CLK, R820T2_RFFILT, R820T2_TF_NCH,
   R820T2_TF_LP, R820T2_PDET3_GAIN, R820T2_PDET1_GAIN, R820T2_PDET2_GAIN,
   R820T2_PDET_CLK, R820T2_FILT_EXT]

/-- The 4-bit-nibble reversal `r82xx_bitrev` (lines 1011-1017):
`(lut[byte & 0xf] << 4) | lut[byte >> 4]`. -/
def r82xx_bitrev (byte : ℕ) : ℕ :=
  let lut : List ℕ := [0x0, 0x8, 0x4, 0xc, 0x2, 0xa, 0x6, 0xe,
                       0x1, 0x9, 0x5, 0xd, 0x3, 0xb, 0x7, 0xf]
  (lut.getD (byte &&& 0xf) 0) <<< 4 ||| lut.getD (byte >>> 4) 0

/-- The tuner state that the shadow operations act on: the 32-byte register
shadow (`registers[R820T2_REGISTERS]`), the 32-bit dirty mask, and a
counter of the I2C read operations performed so far (model time for the
device read oracle). -/
structure TunerState where
  registers : ℕ → ℕ
  registers_dirty_mask : ℕ
  read_count : ℕ

/-- `tuner_set_value` (lines 1128-1134): clear the mask bits of the shadow
byte, or in the shifted value (the store into the `uint8_t` truncates to a
byte), and mark the register dirty. -/
def tuner_set_value (s : TunerState) (w : TunerField) (value : ℕ) : TunerState :=
  { s with
    registers := fun i =>
      if i = w.reg then ((s.registers w.reg &&& (255 ^^^ w.mask)) ||| value <<< w.shift) % 256
      else s.registers i,
    registers_dirty_mask := s.registers_dirty_mask ||| 1 <<< w.reg }

/-- `tuner_get_value` (lines 1122-1125): `(registers[reg] & mask) >> shift`. -/
def tuner_get_value (s : TunerState) (w : TunerField) : ℕ :=
  (s.registers w.reg &&& w.mask) >>> w.shift

/-- `tuner_write_value` (lines 1071-1092): the same shadow update as
`tuner_set_value` and the dirty marking, then one I2C write of that single
register (modelled as succeeding), after which the dirty bit is cleared
again.  The second component is the register run written, `[(reg, 1)]`. -/
def tuner_write_value (s : TunerState) (w : TunerField) (value : ℕ) :
    TunerState × List (ℕ × ℕ) :=
  let s1 := tuner_set_value s w value
  ({ s1 with
     registers_dirty_mask := s1.registers_dirty_mask &&& (4294967295 ^^^ 1 <<< w.reg) },
   [(w.reg, 1)])

/-- The runtime assertions at the top of `tuner_write_value`
(lines 1076-1078): the shifted value has no bits outside the mask, and the
mask is at least the lowest bit selected by the shift. -/
def tuner_write_value_asserts (w : TunerField) (value : ℕ) : Prop :=
  (value <<< w.shift) &&& (4294967295 ^^^ w.mask) = 0 ∧ 1 <<< w.shift ≤ w.mask

instance (w : TunerField) (value : ℕ) : Decidable (tuner_write_value_asserts w value) := by
  unfold tuner_write_value_asserts; infer_instance

def R820T2_REGISTERS_READ_MASK : ℕ := 0xffffffff

def R820T2_REGISTERS_WRITE_MASK : ℕ := 0xfffffff0

/-- The run decomposition shared by `tuner_write_registers` (lines
1095-1119) and `tuner_read_registers` (lines 1040-1068): scan `i` from 0
to 32; a set mask bit opens or extends a run `from..i`, an unset bit (or
`i = 32`) closes it.  Returns the list of `(from, length)` runs, i.e. the
`(from, i - from)` I2C transfers the C loop issues.  Fuel 33 runs the loop
exactly. -/
def i2c_runs (mask : ℕ) : ℕ → ℕ → Option ℕ → List (ℕ × ℕ)
  | 0, _, _ => []
  | fuel + 1, i, from? =>
    if i = 32 ∨ (1 <<< i) &&& mask = 0 then
      match from? with
      | some f => if i = 32 then [(f, i - f)] else (f, i - f) :: i2c_runs mask fuel (i + 1) none
      | none => if i = 32 then [] else i2c_runs mask fuel (i + 1) none
    else
      i2c_runs mask fuel (i + 1) (if from?.isSome then from? else some i)

/-- `tuner_write_registers` (lines 1095-1119): mask with the write mask
(registers 0..3 are read-only), write the runs of consecutive masked
registers over I2C (modelled as succeeding), then clear exactly the masked
bits of the dirty mask.  The second component is the list of runs
written. -/
def tuner_write_registers (s : TunerState) (register_mask : ℕ) :
    TunerState × List (ℕ × ℕ) :=
  let mask := register_mask &&& R820T2_REGISTERS_WRITE_MASK
  ({ s with registers_dirty_mask := s.registers_dirty_mask &&& (4294967295 ^^^ mask) },
   i2c_runs mask 33 0 none)

/-- One I2C read of `len` registers starting at `from`, as
`tuner_read_registers` performs per run: the device bytes (from the oracle
at the current read count) pass through `r82xx_bitrev` into the shadow. -/
def apply_read_run (dev : ℕ → ℕ → ℕ) (s : TunerState) (run : ℕ × ℕ) : TunerState :=
  { s with
    registers := fun i =>
      if run.1 ≤ i ∧ i < run.1 + run.2 then r82xx_bitrev (dev s.read_count i)
      else s.registers i,
    read_count := s.read_count + 1 }

/-- `tuner_read_registers` (lines 1040-1068): mask with the read mask,
read the runs of consecutive masked registers, then clear the masked bits
of the dirty mask.  The second component is the list of runs read. -/
def tuner_read_registers (dev : ℕ → ℕ → ℕ) (s : TunerState) (register_mask : ℕ) :
    TunerState × List (ℕ × ℕ) :=
  let mask := register_mask &&& R820T2_REGISTERS_READ_MASK
  let runs := i2c_runs mask 33 0 none
  let s1 := runs.foldl (apply_read_run dev) s
  ({ s1 with registers_dirty_mask := s1.registers_dirty_mask &&& (4294967295 ^^^ mask) },
   runs)

/-- `tuner_read_value` (lines 1020-1037): one I2C read of registers
`0 ..= reg` (reads must start at register 0), nibble-reversed into the
shadow; the dirty bits `0 ..= reg` are cleared and the field's value is
extracted from the freshly read shadow byte. -/
def tuner_read_value (dev : ℕ → ℕ → ℕ) (s : TunerState) (w : TunerField) :
    ℕ × TunerState :=
  let s1 := apply_read_run dev s (0, w.reg + 1)
  let s2 := { s1 with
    registers_dirty_mask := s1.registers_dirty_mask &&& (4294967295 ^^^ (1 <<< (w.reg + 1) - 1)) }
  ((s2.registers w.reg &&& w.mask) >>> w.shift, s2)

/-! ### Tuner PLL parameter computation (`tuner_compute_pll_parameters`) -/

/-- The computed PLL parameters (struct `tuner_pll_parameters`,
lines 709-717). -/
structure TunerPllParams where
  refdiv : ℕ
  sel_div : ℕ
  ni2c : ℕ
  si2c : ℕ
  pw_sdm : Bool
  sdm : ℕ
deriving DecidableEq

/-- The VCO output divider loop of `tuner_compute_pll_parameters`
(lines 760-765): starting from `vco = frequency * 2` and `sel_div = 0`,
`while (sel_div <= 5 && vco < 1.77e9) { sel_div++; vco *= 2.0; }`.
Fuel at least 7 gives the exact C behavior. -/
def sel_div_loop : ℕ → ℚ → ℕ → ℚ × ℕ
  | 0, vco_frequency, sel_div => (vco_frequency, sel_div)
  | fuel + 1, vco_frequency, sel_div =>
    if sel_div ≤ 5 ∧ vco_frequency < 1770000000 then
      sel_div_loop fuel (2 * vco_frequency) (sel_div + 1)
    else (vco_frequency, sel_div)

/-- The boundary-spur prevention step of `tuner_compute_pll_parameters`
(lines 790-805), on the quantized pair `(mult_int, mult_frac)`.  The
constants are derived exactly as in the source from
`SDM_FRAC_PRECISION = 65536`; `mult_int++` is a `uint32_t` increment. -/
def tuner_boundary_spur_prevention (mult_int mult_frac : ℕ) : ℕ × ℕ :=
  let SDM_FRAC_PRECISION := 65536
  let BOUNDARY_MARGIN := SDM_FRAC_PRECISION / 128
  let LOWER_HALF_MARGIN := SDM_FRAC_PRECISION / 2 - BOUNDARY_MARGIN / 2
  let UPPER_HALF_MARGIN := SDM_FRAC_PRECISION / 2 + BOUNDARY_MARGIN / 2
  if mult_frac < BOUNDARY_MARGIN then (mult_int, 0)
  else if mult_frac > SDM_FRAC_PRECISION - BOUNDARY_MARGIN then (w32 (mult_int + 1), 0)
  else if mult_frac < SDM_FRAC_PRECISION / 2 ∧ mult_frac > LOWER_HALF_MARGIN then
    (mult_int, LOWER_HALF_MARGIN)
  else if mult_frac > SDM_FRAC_PRECISION / 2 ∧ mult_frac < UPPER_HALF_MARGIN then
    (mult_int, UPPER_HALF_MARGIN)
  else (mult_int, mult_frac)

/-- `tuner_compute_pll_parameters` (lines 738-814).  The build selects
`TUNER_PARAMS_BBRF103`, which presets `refdiv = 1`; the function keeps
`refdiv` as a parameter because the multiplier computation branches on it
(`refdiv` is 0 or 1 on every path of the source).  The C cast
`(uint32_t)(multiplier * 65536 + 0.5)` truncates a positive double, i.e.
takes the floor.  `mult_int - 13` is a `uint32_t` subtraction; the
`multiplier >= 13` check makes it non-negative, so plain `ℕ` subtraction
is exact here. -/
def tuner_compute_pll_parameters (xtal_frequency : ℕ) (refdiv : ℕ) (frequency : ℚ) :
    Option TunerPllParams :=
  let t := sel_div_loop 7 (frequency * 2) 0
  let vco_frequency := t.1
  let sel_div := t.2
  if sel_div > 5 then none
  else
    let multiplier : ℚ :=
      if refdiv = 0 then vco_frequency / (2 * xtal_frequency)
      else vco_frequency / xtal_frequency
    if multiplier < 13 then none
    else if 141 ≤ multiplier then none
    else
      let mult_scaled := (⌊multiplier * 65536 + 1 / 2⌋).toNat
      let s := tuner_boundary_spur_prevention (mult_scaled / 65536) (mult_scaled % 65536)
      some ⟨refdiv, sel_div, (s.1 - 13) / 4, (s.1 - 13) % 4, decide (s.2 = 0), s.2⟩

/-! ### Tuner PLL application, calibration and the public setters

For the safety claim about the runtime assertions of `tuner_write_value`,
each operation is modelled by the list of `tuner_write_value` calls
(descriptor, value) it performs; writes that go through `tuner_set_value`
followed by `tuner_write_registers` make no `tuner_write_value` call and
do not appear.  All I2C traffic is modelled as succeeding. -/

/-- The `tuner_write_value` calls of `tuner_apply_pll_parameters`
(lines 817-886): PLL autotune to 128 kHz (`PLL_AUTO_CLK = 0`), VCO current
code 4; after the lock check, a second `VCO_CURRENT = 3` write when the
first VCO indicator read shows bit 6 clear (`locked = false`); finally
PLL autotune to 8 kHz (`PLL_AUTO_CLK = 2`).  The PLL parameters
themselves go through `tuner_set_value` + `tuner_write_registers`. -/
def tuner_apply_pll_write_calls (locked : Bool) : List (TunerField × ℕ) :=
  [(R820T2_PLL_AUTO_CLK, 0), (R820T2_VCO_CURRENT, 4)] ++
  (if locked then [] else [(R820T2_VCO_CURRENT, 3)]) ++
  [(R820T2_PLL_AUTO_CLK, 2)]

/-- The `tuner_write_value` calls of `tuner_set_pll` (lines 720-735):
none when the parameter computation fails, otherwise those of
`tuner_apply_pll_parameters`. -/
def tuner_set_pll_write_calls (xtal_frequency refdiv : ℕ) (locked : Bool) (frequency : ℚ) :
    List (TunerField × ℕ) :=
  match tuner_compute_pll_parameters xtal_frequency refdiv frequency with
  | none => []
  | some _ => tuner_apply_pll_write_calls locked

/-- The calibration frequency `CALIBRATION_LO_FREQUENCY = 88e6`. -/
def CALIBRATION_LO_FREQUENCY : ℚ := 88000000

/-- Result of `tuner_calibrate`: success at some attempt, failure after
five unsuccessful attempts (the `CalibrationFailed` path, lines 703-705),
or an inner `tuner_set_pll` failure (which the C code propagates at once,
line 662-666). -/
inductive CalResult where
  | success (attempt : ℕ)
  | failed
  | pllError
deriving DecidableEq

/-- One-attempt body and loop of `tuner_calibrate` (lines 634-706), with
fuel `5 - i`.  `locks i` tells whether the VCO indicator read inside the
PLL programming of attempt `i` shows the PLL locked, and `cal_read i` is
the raw device byte of register 4 read back at the end of attempt `i`;
the read path nibble-reverses it and the `FIL_CAL_CODE` descriptor
`(0x04, 0x0f, 0)` extracts the low nibble.  The attempt succeeds when the
nibble is non-zero and not 0x0F.  The second component collects the
`tuner_write_value` calls made. -/
def tuner_calibrate_go (xtal_frequency refdiv : ℕ) (locks : ℕ → Bool) (cal_read : ℕ → ℕ) :
    ℕ → ℕ → CalResult × List (TunerField × ℕ)
  | 0, _ => (.failed, [])
  | fuel + 1, i =>
    let ws1 : List (TunerField × ℕ) :=
      [(R820T2_FILT_CAP, 0), (R820T2_CALI_CLK, 1), (R820T2_CAPX, 1)]
    match tuner_compute_pll_parameters xtal_frequency refdiv CALIBRATION_LO_FREQUENCY with
    | none => (.pllError, ws1)
    | some _ =>
      let ws := ws1 ++ tuner_apply_pll_write_calls (locks i) ++
        [(R820T2_CAL_TRIGGER, 1), (R820T2_CAL_TRIGGER, 0), (R820T2_CALI_CLK, 0)]
      let cal_code := r82xx_bitrev (cal_read i) &&& 0x0f
      if cal_code ≠ 0 ∧ cal_code ≠ 0x0f then (.success i, ws)
      else
        let t := tuner_calibrate_go xtal_frequency refdiv locks cal_read fuel (i + 1)
        (t.1, ws ++ t.2)

/-- `tuner_calibrate` (lines 634-706): up to `n_calibration_attempts = 5`
attempts. -/
def tuner_calibrate (xtal_frequency refdiv : ℕ) (locks : ℕ → Bool) (cal_read : ℕ → ℕ) :
    CalResult × List (TunerField × ℕ) :=
  tuner_calibrate_go xtal_frequency refdiv locks cal_read 5 0

/-- The nibble obtained for attempt `i`: the raw device byte passes
through `r82xx_bitrev`, then the `FIL_CAL_CODE` mask. -/
def cal_code_of (cal_read : ℕ → ℕ) (i : ℕ) : ℕ := r82xx_bitrev (cal_read i) &&& 0x0f

/-- A calibration attempt with this nibble succeeds. -/
def cal_code_ok (c : ℕ) : Prop := c ≠ 0 ∧ c ≠ 0x0f

instance (c : ℕ) : Decidable (cal_code_ok c) := by unfold cal_code_ok; infer_instance

/-- `tuner_lna_gains_table` (lines 317-319). -/
def tuner_lna_gains_table : List ℤ :=
  [0, 2, 4, 6, 8, 10, 12, 14, 16, 18, 20, 22, 24, 26, 28, 30]

/-- `tuner_mixer_gains_table` (lines 363-365). -/
def tuner_mixer_gains_table : List ℤ :=
  [0, 1, 2, 3, 4, 5, 6, 7, 8, 9, 10, 11, 12, 13, 14, 15]

/-- `tuner_vga_gains_table` (lines 409-411). -/
def tuner_vga_gains_table : List ℤ :=
  [0, 1, 2, 3, 4, 5, 6, 7, 8, 9, 10, 11, 12, 13, 14, 15]

/-- The `tuner_write_value` calls of `tuner_set_lna_gain` (lines 328-349):
the first index whose table entry equals the requested gain, written to
`LNA_GAIN`; no call when the gain is not in the table (the function
rejects it). -/
def tuner_set_lna_gain_write_calls (gain : ℤ) : List (TunerField × ℕ) :=
  match tuner_lna_gains_table.findIdx? (· == gain) with
  | none => []
  | some idx => [(R820T2_LNA_GAIN, idx)]

/-- The `tuner_write_value` calls of `tuner_set_lna_agc` (lines 351-359):
`agc ? 0 : 1` into `LNA_GAIN_MODE`. -/
def tuner_set_lna_agc_write_calls (agc : ℤ) : List (TunerField × ℕ) :=
  [(R820T2_LNA_GAIN_MODE, if agc ≠ 0 then 0 else 1)]

/-- The `tuner_write_value` calls of `tuner_set_mixer_gain`
(lines 374-395). -/
def tuner_set_mixer_gain_write_calls (gain : ℤ) : List (TunerField × ℕ) :=
  match tuner_mixer_gains_table.findIdx? (· == gain) with
  | none => []
  | some idx => [(R820T2_MIX_GAIN, idx)]

/-- The `tuner_write_value` calls of `tuner_set_mixer_agc`
(lines 397-405): `agc ? 1 : 0` into `MIXGAIN_MODE`. -/
def tuner_set_mixer_agc_write_calls (agc : ℤ) : List (TunerField × ℕ) :=
  [(R820T2_MIXGAIN_MODE, if agc ≠ 0 then 1 else 0)]

/-- The `tuner_write_value` calls of `tuner_set_vga_gain`
(lines 420-441). -/
def tuner_set_vga_gain_write_calls (gain : ℤ) : List (TunerField × ℕ) :=
  match tuner_vga_gains_table.findIdx? (· == gain) with
  | none => []
  | some idx => [(R820T2_VGA_CODE, idx)]

/-- The `tuner_write_value` calls of `tuner_set_frequency`
(lines 274-289): `tuner_set_mux` uses only `tuner_set_value` +
`tuner_write_registers`, so all `tuner_write_value` calls come from
`tuner_set_pll(frequency + if_frequency)`. -/
def tuner_set_frequency_write_calls (xtal_frequency if_frequency refdiv : ℕ)
    (locked : Bool) (frequency : ℚ) : List (TunerField × ℕ) :=
  tuner_set_pll_write_calls xtal_frequency refdiv locked (frequency + if_frequency)

/-- The `tuner_write_value` calls of `tuner_set_if_bandwidth`
(lines 482-510): none — it uses `tuner_set_value` and
`tuner_write_registers` only. -/
def tuner_set_if_bandwidth_write_calls (_bandwidth : ℕ) : List (TunerField × ℕ) := []

/-! ### Tuner shadow operation sequences (for the dirty-mask invariant)

A `TunerOp` is one of the five shadow operations; `tuner_exec` runs a
sequence from a state, with all I2C traffic succeeding and read data given
by the oracle `dev` (read-operation index, register index ↦ byte). -/

inductive TunerOp where
  | setVal (w : TunerField) (value : ℕ)
  | writeVal (w : TunerField) (value : ℕ)
  | writeRegs (register_mask : ℕ)
  | readVal (w : TunerField)
  | readRegs (register_mask : ℕ)

/-- One shadow operation. -/
def tuner_op_step (dev : ℕ → ℕ → ℕ) (s : TunerState) : TunerOp → TunerState
  | .setVal w v => tuner_set_value s w v
  | .writeVal w v => (tuner_write_value s w v).1
  | .writeRegs m => (tuner_write_registers s m).1
  | .readVal w => (tuner_read_value dev s w).2
  | .readRegs m => (tuner_read_registers dev s m).1

/-- A sequence of shadow operations. -/
def tuner_exec (dev : ℕ → ℕ → ℕ) (s : TunerState) : List TunerOp → TunerState
  | [] => s
  | op :: ops => tuner_exec dev (tuner_op_step dev s op) ops

/-- Register `i` is covered by one of the I2C register runs. -/
def covered (runs : List (ℕ × ℕ)) (i : ℕ) : Bool :=
  runs.any fun r => r.1 ≤ i ∧ i < r.1 + r.2

/-- The registers-pending predicate of the specification, computed from
the operations and the I2C transfers they issue: setting a field marks its
register written-but-not-flushed; a flush (the write runs the operation
issues) clears the registers it wrote; a read clears the registers it
read. -/
def pending_step (p : ℕ → Bool) : TunerOp → ℕ → Bool
  | .setVal w _, i => if i = w.reg then true else p i
  | .writeVal w _, i => if covered (tuner_write_value ⟨fun _ => 0, 0, 0⟩ w 0).2 i then false
      else if i = w.reg then true else p i
  | .writeRegs m, i => if covered (tuner_write_registers ⟨fun _ => 0, 0, 0⟩ m).2 i then false
      else p i
  | .readVal w, i => if covered [(0, w.reg + 1)] i then false else p i
  | .readRegs m, i => if covered (tuner_read_registers (fun _ _ => 0) ⟨fun _ => 0, 0, 0⟩ m).2 i
      then false else p i

/-- The pending predicate after a sequence of operations. -/
def pending_after (p : ℕ → Bool) : List TunerOp → ℕ → Bool
  | [] => p
  | op :: ops => pending_after (pending_step p op) ops

/-- A shadow operation is well formed when the descriptor it addresses
names one of the 32 registers (every descriptor of the register matrix
does). -/
def tuner_op_wf : TunerOp → Prop
  | .setVal w _ => w.reg < 32
  | .writeVal w _ => w.reg < 32
  | .readVal w => w.reg < 32
  | .writeRegs _ => True
  | .readRegs _ => True

/-- The boundary-spur prevention transformation exactly as the claim
states it, with margin `delta = 65536 / 128 = 512`, for comparison with
the source's `tuner_boundary_spur_prevention`. -/
def boundary_spur_claim (M_int M_frac : ℕ) : ℕ × ℕ :=
  let delta := 512
  if M_frac < delta then (M_int, 0)
  else if M_frac > 65536 - delta then (M_int + 1, 0)
  else if 32768 - delta / 2 < M_frac ∧ M_frac < 32768 then (M_int, 32768 - delta / 2)
  else if 32768 < M_frac ∧ M_frac < 32768 + delta / 2 then (M_int, 32768 + delta / 2)
  else (M_int, M_frac)

/-! ## Theorems -/

/-- Every descriptor of the register matrix has a byte-sized mask, a
register index below 32 and a shift below 8. -/
theorem register_matrix_wf :
    ∀ w ∈ R820T2_register_matrix, w.mask < 256 ∧ w.reg < 32 ∧ w.shift < 8 := by
  decide

/-- Core bitwise identity of the shadow write-then-read path: writing
value `v` into a field of mask `m < 256` and shift `s` over any previous
byte `r`, then reading the field back, returns `v &&& (m >>> s)`. -/
theorem get_after_set_bits (r v m s : ℕ) (hm : m < 256) :
    ((((r &&& (255 ^^^ m)) ||| v <<< s) % 256) &&& m) >>> s = v &&& (m >>> s) := by
  apply Nat.eq_of_testBit_eq
  intro i
  have h256 : (256 : ℕ) = 2 ^ 8 := by norm_num
  rw [Nat.testBit_shiftRight, Nat.testBit_land, Nat.testBit_land, Nat.testBit_shiftRight,
    h256, Nat.testBit_mod_two_pow, Nat.testBit_lor, Nat.testBit_land, Nat.testBit_xor,
    Nat.testBit_shiftLeft]
  by_cases hmb : m.testBit (s + i)
  · have hsi : s + i < 8 := by
      by_contra hcon
      exact absurd (Nat.testBit_eq_false_of_lt (lt_of_lt_of_le hm (by
        calc (256 : ℕ) = 2 ^ 8 := by norm_num
        _ ≤ 2 ^ (s + i) := Nat.pow_le_pow_right (by norm_num) (by omega)))) (by simp [hmb])
    have h255 : (255 : ℕ).testBit (s + i) = true := by
      have : (255 : ℕ) = 2 ^ 8 - 1 := by norm_num
      rw [this, Nat.testBit_two_pow_sub_one]
      simp [hsi]
    simp [hmb, h255, hsi, Nat.add_sub_cancel_left, decide_eq_true (Nat.le_add_right s i)]
  · simp [hmb]

/-- C6: with SDM precision 65536 and margin `delta = 512`, the
boundary-spur prevention step of `tuner_compute_pll_parameters`
transforms the quantized pair `(M_int, M_frac)` exactly as the claim
describes — snap small fractions to 0, carry fractions above
`65536 - delta` into the integer part, and push fractions out of the
open `delta/2`-neighbourhoods of the half point 32768 — leaving every
other pair unchanged. -/
theorem C6_boundary_spur (M_int M_frac : ℕ) (hf : M_frac < 65536)
    (hi : M_int < 4294967295) :
    tuner_boundary_spur_prevention M_int M_frac = boundary_spur_claim M_int M_frac := by
  have hw : w32 (M_int + 1) = M_int + 1 := Nat.mod_eq_of_lt (by omega)
  unfold tuner_boundary_spur_prevention boundary_spur_claim
  simp only [hw]
  norm_num
  split_ifs <;> first | rfl | omega

/-- C6 witness: the transformation at the concrete pair `(26, 49152)`
(the quantized multiplier 26.75) leaves it unchanged. -/
theorem C6_boundary_spur_witness :
    tuner_boundary_spur_prevention 26 49152 = boundary_spur_claim 26 49152 :=
  C6_boundary_spur 26 49152 (by norm_num) (by norm_num)

/-- C7: for every field descriptor `(reg, mask, shift)` of the tuner
register map and every value `v`, reading the field back after
`tuner_set_value (field, v)` returns `v &&& (mask >>> shift)`; in general
reading a field returns `(shadow[reg] &&& mask) >>> shift` (that is
`tuner_get_value` by definition, proved here through the round trip),
and writing a field changes only `shadow[reg]` — only its masked bits,
when the value fits the field — and sets exactly bit `reg` of the dirty
mask. -/
theorem C7_field_roundtrip :
    ∀ w ∈ R820T2_register_matrix, ∀ (s : TunerState) (v : ℕ),
      tuner_get_value (tuner_set_value s w v) w = v &&& (w.mask >>> w.shift) ∧
      (∀ i, i ≠ w.reg → (tuner_set_value s w v).registers i = s.registers i) ∧
      (s.registers w.reg < 256 → (v <<< w.shift) &&& (4294967295 ^^^ w.mask) = 0 →
        ∀ j, w.mask.testBit j = false →
          ((tuner_set_value s w v).registers w.reg).testBit j
            = (s.registers w.reg).testBit j) ∧
      (tuner_set_value s w v).registers_dirty_mask.testBit w.reg = true ∧
      (∀ i, i ≠ w.reg →
        (tuner_set_value s w v).registers_dirty_mask.testBit i
          = s.registers_dirty_mask.testBit i) := by
  intro w hw s v
  obtain ⟨hmask, -, -⟩ := register_matrix_wf w hw
  have h256 : (256 : ℕ) = 2 ^ 8 := by norm_num
  refine ⟨?_, ?_, ?_, ?_, ?_⟩
  · have h := get_after_set_bits (s.registers w.reg) v w.mask w.shift hmask
    simp only [tuner_get_value, tuner_set_value]
    simpa using h
  · intro i hi
    simp [tuner_set_value, hi]
  · intro hbyte hfit j hj
    by_cases hj8 : j < 8
    · have hshift : (v <<< w.shift).testBit j = false := by
        have h0 := congrArg (fun n => n.testBit j) hfit
        simp only [Nat.testBit_land, Nat.testBit_xor, Nat.zero_testBit] at h0
        have hones : (4294967295 : ℕ).testBit j = true := by
          have h32 : (4294967295 : ℕ) = 2 ^ 32 - 1 := by norm_num
          rw [h32, Nat.testBit_two_pow_sub_one]
          simp only [decide_eq_true_eq]
          omega
        rw [hones, hj] at h0
        simpa using h0
      have h255 : (255 : ℕ).testBit j = true := by
        have h8 : (255 : ℕ) = 2 ^ 8 - 1 := by norm_num
        rw [h8, Nat.testBit_two_pow_sub_one]
        simp [hj8]
      have hreg : (tuner_set_value s w v).registers w.reg
          = ((s.registers w.reg &&& (255 ^^^ w.mask)) ||| v <<< w.shift) % 256 := by
        simp [tuner_set_value]
      rw [hreg, h256, Nat.testBit_mod_two_pow, Nat.testBit_lor, Nat.testBit_land,
        Nat.testBit_xor, hshift, h255, hj]
      simp [hj8]
    · have hbig : (2 : ℕ) ^ 8 ≤ 2 ^ j := Nat.pow_le_pow_right (by norm_num) (by omega)
      have hold : (s.registers w.reg).testBit j = false :=
        Nat.testBit_eq_false_of_lt (lt_of_lt_of_le hbyte (h256 ▸ hbig))
      have hreg : (tuner_set_value s w v).registers w.reg
          = ((s.registers w.reg &&& (255 ^^^ w.mask)) ||| v <<< w.shift) % 256 := by
        simp [tuner_set_value]
      have hnewlt : ((tuner_set_value s w v).registers w.reg) < 256 := by
        rw [hreg]
        exact Nat.mod_lt _ (by norm_num)
      rw [hold]
      exact Nat.testBit_eq_false_of_lt (lt_of_lt_of_le hnewlt (h256 ▸ hbig))
  · simp only [tuner_set_value, Nat.testBit_lor]
    have h1 : ((1 : ℕ) <<< w.reg).testBit w.reg = true := by
      rw [Nat.shiftLeft_eq, one_mul, Nat.testBit_two_pow_self]
    simp [h1]
  · intro i hi
    simp only [tuner_set_value, Nat.testBit_lor]
    have h1 : ((1 : ℕ) <<< w.reg).testBit i = false := by
      rw [Nat.shiftLeft_eq, one_mul]
      exact Nat.testBit_two_pow_of_ne (fun h => hi h.symm)
    simp [h1]

/-- C7 witness: the round trip at the concrete descriptor
`R820T2_LNA_GAIN = (0x05, 0x0f, 0)`, a zeroed shadow and value 7. -/
theorem C7_field_roundtrip_witness :
    tuner_get_value (tuner_set_value ⟨fun _ => 0, 0, 0⟩ R820T2_LNA_GAIN 7) R820T2_LNA_GAIN
      = 7 &&& (R820T2_LNA_GAIN.mask >>> R820T2_LNA_GAIN.shift) :=
  (C7_field_roundtrip R820T2_LNA_GAIN (by decide) ⟨fun _ => 0, 0, 0⟩ 7).1

/-- Characterization of the calibration attempt loop, by induction on the
remaining fuel `5 - i`. -/
theorem tuner_calibrate_go_spec (xtal_frequency refdiv : ℕ) (locks : ℕ → Bool)
    (cal_read : ℕ → ℕ)
    (hpll : (tuner_compute_pll_parameters xtal_frequency refdiv
      CALIBRATION_LO_FREQUENCY).isSome) :
    ∀ fuel i, fuel + i = 5 →
      (∀ j, (tuner_calibrate_go xtal_frequency refdiv locks cal_read fuel i).1 = .success j →
          i ≤ j ∧ j < 5 ∧ cal_code_ok (cal_code_of cal_read j) ∧
          ∀ k, i ≤ k → k < j → ¬ cal_code_ok (cal_code_of cal_read k)) ∧
      ((tuner_calibrate_go xtal_frequency refdiv locks cal_read fuel i).1 = .failed ↔
          ∀ k, i ≤ k → k < 5 → ¬ cal_code_ok (cal_code_of cal_read k)) := by
  obtain ⟨p, hp⟩ := Option.isSome_iff_exists.mp hpll
  intro fuel
  induction fuel with
  | zero =>
    intro i hi
    constructor
    · intro j hj
      simp [tuner_calibrate_go] at hj
    · simp only [tuner_calibrate_go]
      constructor
      · intro _ k hk1 hk2
        omega
      · intro _
        trivial
  | succ fuel ih =>
    intro i hi
    have hcode : cal_code_of cal_read i = r82xx_bitrev (cal_read i) &&& 0x0f := rfl
    by_cases hok : cal_code_ok (cal_code_of cal_read i)
    · have hgo : (tuner_calibrate_go xtal_frequency refdiv locks cal_read (fuel + 1) i).1
          = .success i := by
        rw [tuner_calibrate_go, hp]
        simp only
        rw [if_pos]
        exact ⟨hok.1, hok.2⟩
      constructor
      · intro j hj
        rw [hgo] at hj
        cases hj
        exact ⟨le_refl i, by omega, hok, fun k hk1 hk2 => absurd hk1 (by omega)⟩
      · rw [hgo]
        constructor
        · intro h
          cases h
        · intro h
          exact absurd hok (h i (le_refl i) (by omega))
    · have hgo : (tuner_calibrate_go xtal_frequency refdiv locks cal_read (fuel + 1) i).1
          = (tuner_calibrate_go xtal_frequency refdiv locks cal_read fuel (i + 1)).1 := by
        rw [tuner_calibrate_go, hp]
        simp only
        rw [if_neg]
        intro hcon
        exact hok ⟨hcon.1, hcon.2⟩
      obtain ⟨ih1, ih2⟩ := ih (i + 1) (by omega)
      constructor
      · intro j hj
        rw [hgo] at hj
        obtain ⟨hj1, hj2, hj3, hj4⟩ := ih1 j hj
        refine ⟨by omega, hj2, hj3, fun k hk1 hk2 => ?_⟩
        rcases Nat.eq_or_lt_of_le hk1 with h | h
        · exact h ▸ hok
        · exact hj4 k (by omega) hk2
      · rw [hgo, ih2]
        constructor
        · intro h k hk1 hk2
          rcases Nat.eq_or_lt_of_le hk1 with he | he
          · exact he ▸ hok
          · exact h k (by omega) hk2
        · intro h k hk1 hk2
          exact h k (by omega) hk2

/-- C5: `tuner_calibrate` performs at most five attempts: whenever it
returns success it does so at some attempt `i < 5` whose `FIL_CAL_CODE`
nibble is non-zero and not 0x0F while every earlier attempt's nibble was
0 or 0x0F; and it fails with `CalibrationFailed` exactly when all five
attempts read a nibble that is 0 or 0x0F.  (I2C traffic is modelled as
succeeding; the hypothesis says the PLL parameter computation for the
88 MHz calibration frequency succeeds, which holds for the default
crystal.) -/
theorem C5_calibrate_attempts (xtal_frequency refdiv : ℕ) (locks : ℕ → Bool)
    (cal_read : ℕ → ℕ)
    (hpll : (tuner_compute_pll_parameters xtal_frequency refdiv
      CALIBRATION_LO_FREQUENCY).isSome) :
    (∀ j, (tuner_calibrate xtal_frequency refdiv locks cal_read).1 = .success j →
        j < 5 ∧ cal_code_ok (cal_code_of cal_read j) ∧
        ∀ k, k < j → ¬ cal_code_ok (cal_code_of cal_read k)) ∧
    ((tuner_calibrate xtal_frequency refdiv locks cal_read).1 = .failed ↔
        ∀ k, k < 5 → ¬ cal_code_ok (cal_code_of cal_read k)) := by
  obtain ⟨h1, h2⟩ := tuner_calibrate_go_spec xtal_frequency refdiv locks cal_read hpll 5 0
    (by omega)
  constructor
  · intro j hj
    obtain ⟨-, hj2, hj3, hj4⟩ := h1 j hj
    exact ⟨hj2, hj3, fun k hk => hj4 k (Nat.zero_le k) hk⟩
  · rw [show tuner_calibrate xtal_frequency refdiv locks cal_read
        = tuner_calibrate_go xtal_frequency refdiv locks cal_read 5 0 from rfl, h2]
    constructor
    · intro h k hk
      exact h k (Nat.zero_le k) hk
    · intro h k _ hk
      exact h k hk

/-- C5 witness: with the default 32 MHz crystal and `refdiv = 1`, a
device that answers 0xF0 for register 4 on every attempt (the nibble
reversal turns it into `FIL_CAL_CODE = 0x0F`) drives `tuner_calibrate`
into the `CalibrationFailed` path. -/
theorem C5_calibrate_attempts_witness :
    (tuner_calibrate 32000000 1 (fun _ => true) (fun _ => 0xf0)).1 = CalResult.failed :=
  (C5_calibrate_attempts 32000000 1 (fun _ => true) (fun _ => 0xf0)
    (by with_unfolding_all rfl)).2.mpr (by decide)

/-- C4 counterexample: at the claim's own input — `set_frequency(100 MHz)`
with `f_if = 7 MHz` and `f_xtal_tuner = 32 MHz`, LO = 107 MHz, BBRF103
build so `REFDIV = 1` — the code chooses `sel_div = 4` (not 3, because
`107 MHz · 2^4 = 1.712 GHz` is below the 1.77 GHz VCO minimum, so the
loop doubles once more), and the multiplier is
`f_vco / f_xtal = 3.424 GHz / 32 MHz = 107` (not `f_vco / (2·f_xtal)`),
giving `NI2C = 23, SI2C = 2, SDM = 0, PW_SDM = 1` instead of the claimed
`NI2C = 3, SI2C = 1, SDM = 49152, PW_SDM = 0`. -/
theorem C4_pll_example_counterexample :
    tuner_compute_pll_parameters 32000000 1 (100000000 + 7000000)
      = some ⟨1, 4, 23, 2, true, 0⟩ ∧
    ¬ ∃ p, tuner_compute_pll_parameters 32000000 1 (100000000 + 7000000) = some p ∧
        p.sel_div = 3 ∧ p.ni2c = 3 ∧ p.si2c = 1 ∧ p.sdm = 49152 ∧ p.pw_sdm = false := by
  have h : tuner_compute_pll_parameters 32000000 1 (100000000 + 7000000)
      = some ⟨1, 4, 23, 2, true, 0⟩ := by with_unfolding_all rfl
  refine ⟨h, ?_⟩
  rintro ⟨p, hp, hsel, -⟩
  rw [h] at hp
  cases hp
  simp at hsel

/-- The boundary-spur step moves the assembled quantized multiplier
`mi * 65536 + mf` by at most the margin 512, keeps the fraction below
65536, and increments the integer part by at most one. -/
theorem tuner_boundary_spur_bounds (mi mf : ℕ) (hmf : mf < 65536) (hmi : mi < 4294967295) :
    mi ≤ (tuner_boundary_spur_prevention mi mf).1 ∧
    (tuner_boundary_spur_prevention mi mf).1 ≤ mi + 1 ∧
    (tuner_boundary_spur_prevention mi mf).2 < 65536 ∧
    mi * 65536 + mf ≤
      (tuner_boundary_spur_prevention mi mf).1 * 65536
        + (tuner_boundary_spur_prevention mi mf).2 + 512 ∧
    (tuner_boundary_spur_prevention mi mf).1 * 65536 + (tuner_boundary_spur_prevention mi mf).2
      ≤ mi * 65536 + mf + 512 := by
  have hw : w32 (mi + 1) = mi + 1 := Nat.mod_eq_of_lt (by omega)
  unfold tuner_boundary_spur_prevention
  simp only [hw]
  norm_num
  split_ifs <;> simp <;> omega

/-- C4 as amended: `tuner_compute_pll_parameters` computes the multiplier
as `M = f_vco / (refdiv_factor · f_xtal_tuner)` with `refdiv_factor = 2`
when `REFDIV = 0` and `refdiv_factor = 1` when `REFDIV = 1` (the reverse
of the claimed correspondence); whenever it succeeds, `13 ≤ M < 141`,
`sel_div` is the loop's divider exponent (at most 5), the encoded
parameters satisfy `13 + 4·NI2C + SI2C + SDM/65536 ≈ M` up to the
quantization rounding plus the boundary-spur margin
(`(1/2 + 512)/65536 = 1025/131072`), and `PW_SDM` is set exactly when
`SDM = 0`.  Consequently `set_frequency(100 MHz)` with `f_if = 7 MHz`,
`f_xtal_tuner = 32 MHz` and `REFDIV = 1` yields `sel_div = 4`, `M = 107`,
`NI2C = 23, SI2C = 2, SDM = 0, PW_SDM = 1`. -/
theorem C4_pll_multiplier_amended :
    (∀ (xtal_frequency refdiv : ℕ) (frequency : ℚ) (p : TunerPllParams),
      0 < xtal_frequency →
      tuner_compute_pll_parameters xtal_frequency refdiv frequency = some p →
      p.refdiv = refdiv ∧
      p.sel_div = (sel_div_loop 7 (frequency * 2) 0).2 ∧
      p.sel_div ≤ 5 ∧
      13 ≤ (sel_div_loop 7 (frequency * 2) 0).1
        / ((if refdiv = 0 then 2 else 1) * (xtal_frequency : ℚ)) ∧
      (sel_div_loop 7 (frequency * 2) 0).1
        / ((if refdiv = 0 then 2 else 1) * (xtal_frequency : ℚ)) < 141 ∧
      |(13 + 4 * (p.ni2c : ℚ) + p.si2c) + (p.sdm : ℚ) / 65536
          - (sel_div_loop 7 (frequency * 2) 0).1
            / ((if refdiv = 0 then 2 else 1) * (xtal_frequency : ℚ))| ≤ 1025 / 131072 ∧
      (p.pw_sdm = true ↔ p.sdm = 0)) ∧
    tuner_compute_pll_parameters 32000000 1 (100000000 + 7000000)
      = some ⟨1, 4, 23, 2, true, 0⟩ := by
  constructor
  · intro xtal refdiv f p hx hres
    unfold tuner_compute_pll_parameters at hres
    by_cases h5 : (sel_div_loop 7 (f * 2) 0).2 > 5
    · rw [if_pos h5] at hres
      cases hres
    rw [if_neg h5] at hres
    dsimp only at hres
    set M : ℚ := if refdiv = 0 then (sel_div_loop 7 (f * 2) 0).1 / (2 * xtal)
      else (sel_div_loop 7 (f * 2) 0).1 / xtal with hM
    by_cases h13 : M < 13
    · rw [if_pos h13] at hres
      cases hres
    rw [if_neg h13] at hres
    by_cases h141 : (141 : ℚ) ≤ M
    · rw [if_pos h141] at hres
      cases hres
    rw [if_neg h141] at hres
    push_neg at h13 h141
    have hMeq : (sel_div_loop 7 (f * 2) 0).1 / ((if refdiv = 0 then 2 else 1) * (xtal : ℚ))
        = M := by
      rw [hM]
      by_cases h0 : refdiv = 0 <;> simp [h0]
    -- the quantized multiplier
    have hfl : (0 : ℤ) ≤ ⌊M * 65536 + 1 / 2⌋ := by
      apply Int.floor_nonneg.mpr
      nlinarith
    set ms : ℕ := (⌊M * 65536 + 1 / 2⌋).toNat with hms
    have hmsc : (ms : ℚ) = ((⌊M * 65536 + 1 / 2⌋ : ℤ) : ℚ) := by
      rw [hms]
      exact_mod_cast congrArg (fun z : ℤ => (z : ℚ)) (Int.toNat_of_nonneg hfl)
    have hms_ub : (ms : ℚ) ≤ M * 65536 + 1 / 2 := by
      rw [hmsc]
      exact_mod_cast Int.floor_le _
    have hms_lb : M * 65536 - 1 / 2 < (ms : ℚ) := by
      rw [hmsc]
      have h := Int.lt_floor_add_one (M * 65536 + 1 / 2)
      push_cast at h ⊢
      linarith
    -- integer bounds on ms
    have hms_lo : 13 * 65536 ≤ ms := by
      by_contra hcon
      push_neg at hcon
      have h2 : (ms : ℚ) ≤ 851967 := by
        have h3 : ms ≤ 851967 := by omega
        exact_mod_cast h3
      have h3 : (851968 : ℚ) ≤ M * 65536 := by nlinarith
      linarith
    have hms_hi : ms ≤ 141 * 65536 := by
      by_contra hcon
      push_neg at hcon
      have h2 : (9240577 : ℚ) ≤ (ms : ℚ) := by exact_mod_cast hcon
      have h3 : M * 65536 < 9240576 := by nlinarith
      linarith
    -- the spur step
    obtain ⟨hs1, hs2, hs3, hs4, hs5⟩ :=
      tuner_boundary_spur_bounds (ms / 65536) (ms % 65536) (Nat.mod_lt _ (by norm_num))
        (by omega)
    have hdecomp : (ms / 65536) * 65536 + ms % 65536 = ms := by omega
    rw [hdecomp] at hs4 hs5
    have hsplo : 13 ≤ (tuner_boundary_spur_prevention (ms / 65536) (ms % 65536)).1 := by
      have h13d : 13 ≤ ms / 65536 := by omega
      omega
    rw [Option.some_inj] at hres
    subst hres
    refine ⟨rfl, rfl, ?_, ?_, ?_, ?_, ?_⟩
    · show (sel_div_loop 7 (f * 2) 0).2 ≤ 5
      omega
    · rw [hMeq]; exact h13
    · rw [hMeq]; exact h141
    · rw [hMeq]
      show |(13 + 4 * (((tuner_boundary_spur_prevention (ms / 65536) (ms % 65536)).1 - 13)
            / 4 : ℕ) + (((tuner_boundary_spur_prevention (ms / 65536) (ms % 65536)).1 - 13)
            % 4 : ℕ) : ℚ)
          + ((tuner_boundary_spur_prevention (ms / 65536) (ms % 65536)).2 : ℚ) / 65536 - M|
          ≤ 1025 / 131072
      have hre : (13 + 4 * (((tuner_boundary_spur_prevention (ms / 65536) (ms % 65536)).1
            - 13) / 4 : ℕ) + (((tuner_boundary_spur_prevention (ms / 65536) (ms % 65536)).1
            - 13) % 4 : ℕ) : ℚ)
          = ((tuner_boundary_spur_prevention (ms / 65536) (ms % 65536)).1 : ℚ) := by
        have harith : 13 + 4 * (((tuner_boundary_spur_prevention (ms / 65536) (ms % 65536)).1
            - 13) / 4) + ((tuner_boundary_spur_prevention (ms / 65536) (ms % 65536)).1 - 13)
            % 4 = (tuner_boundary_spur_prevention (ms / 65536) (ms % 65536)).1 := by omega
        exact_mod_cast harith
      rw [hre, abs_le]
      have hc1 : (ms : ℚ) ≤ ((tuner_boundary_spur_prevention (ms / 65536) (ms % 65536)).1
          : ℚ) * 65536 + ((tuner_boundary_spur_prevention (ms / 65536) (ms % 65536)).2 : ℚ)
          + 512 := by exact_mod_cast hs4
      have hc2 : ((tuner_boundary_spur_prevention (ms / 65536) (ms % 65536)).1 : ℚ) * 65536
          + ((tuner_boundary_spur_prevention (ms / 65536) (ms % 65536)).2 : ℚ)
          ≤ (ms : ℚ) + 512 := by exact_mod_cast hs5
      constructor
      · nlinarith
      · nlinarith
    · show decide ((tuner_boundary_spur_prevention (ms / 65536) (ms % 65536)).2 = 0) = true
          ↔ (tuner_boundary_spur_prevention (ms / 65536) (ms % 65536)).2 = 0
      simp
  · with_unfolding_all rfl

/-- C4 witness: the amended general statement applied at the concrete
input 107 MHz with the 32 MHz crystal and `REFDIV = 1`: the encoded
parameters `(NI2C, SI2C, SDM) = (23, 2, 0)` reassemble to the multiplier
`13 + 4·23 + 2 = 105 + 2 = ...` within the stated distance of
`M = 107`. -/
theorem C4_pll_multiplier_amended_witness :
    |(13 + 4 * ((23 : ℕ) : ℚ) + ((2 : ℕ) : ℚ)) + (((0 : ℕ) : ℚ)) / 65536
        - (sel_div_loop 7 ((100000000 + 7000000 : ℚ) * 2) 0).1
          / ((if (1 : ℕ) = 0 then 2 else 1) * ((32000000 : ℕ) : ℚ))| ≤ 1025 / 131072 :=
  ((C4_pll_multiplier_amended.1 32000000 1 (100000000 + 7000000) ⟨1, 4, 23, 2, true, 0⟩
    (by norm_num) (by with_unfolding_all rfl)).2.2.2.2.2).1

/-- Characterization of the R-divider loop: the returned frequency is the
input doubled `R - d` times, `R` is at most 8 (from a start below 8), every
earlier exponent left the frequency below 1 MHz, and when the loop stopped
with `R ≤ 7` it did so because the frequency reached 1 MHz. -/
theorem rdiv_loop_spec (fuel : ℕ) : ∀ (f : ℚ) (d : ℕ), 8 ≤ d + fuel →
    (rdiv_loop fuel f d).1 = f * 2 ^ ((rdiv_loop fuel f d).2 - d) ∧
    d ≤ (rdiv_loop fuel f d).2 ∧
    ((rdiv_loop fuel f d).2 ≤ 8 ∨ (rdiv_loop fuel f d).2 = d) ∧
    (∀ r, d ≤ r → r < (rdiv_loop fuel f d).2 → f * 2 ^ (r - d) < 1000000) ∧
    ((rdiv_loop fuel f d).2 ≤ 7 → 1000000 ≤ (rdiv_loop fuel f d).1) := by
  induction fuel with
  | zero =>
    intro f d hd
    refine ⟨by simp [rdiv_loop], by simp [rdiv_loop], ?_, ?_, ?_⟩
    · right
      simp [rdiv_loop]
    · intro r hr1 hr2
      simp [rdiv_loop] at hr2
      omega
    · intro h7
      simp [rdiv_loop] at h7
      omega
  | succ fuel ih =>
    intro f d hd
    by_cases hc : f < 1000000 ∧ d ≤ 7
    · have hstep : rdiv_loop (fuel + 1) f d = rdiv_loop fuel (2 * f) (d + 1) := by
        rw [rdiv_loop, if_pos hc]
      obtain ⟨ih1, ih2, ih3, ih4, ih5⟩ := ih (2 * f) (d + 1) (by omega)
      rw [hstep]
      refine ⟨?_, by omega, by omega, ?_, ih5⟩
      · rw [ih1]
        have he : (rdiv_loop fuel (2 * f) (d + 1)).2 - d
            = ((rdiv_loop fuel (2 * f) (d + 1)).2 - (d + 1)) + 1 := by omega
        rw [he, pow_succ]
        ring
      · intro r hr1 hr2
        rcases Nat.eq_or_lt_of_le hr1 with he | hlt
        · rw [← he]
          simpa using hc.1
        · have := ih4 r (by omega) hr2
          have he : r - d = (r - (d + 1)) + 1 := by omega
          rw [he, pow_succ]
          calc f * (2 ^ (r - (d + 1)) * 2) = 2 * f * 2 ^ (r - (d + 1)) := by ring
          _ < 1000000 := this
    · have hstep : rdiv_loop (fuel + 1) f d = (f, d) := by
        rw [rdiv_loop, if_neg hc]
      rw [hstep]
      refine ⟨by simp, le_refl d, Or.inr rfl, ?_, ?_⟩
      · intro r hr1 hr2
        simp at hr2
        omega
      · intro h7
        simp at h7 ⊢
        rcases not_and_or.mp hc with h | h
        · exact le_of_not_lt h
        · omega

/-- C2 as amended: for every positive requested frequency, the R-divider
loop of `clock_source_set_clock` doubles the frequency while it is below
1 MHz, choosing the smallest exponent `R` that reaches 1 MHz — but `R`
ranges over `[0, 8]`, not `[0, 7]`: the loop condition `rdiv <= 7` lets
`rdiv` reach 8 before the final check, so a frequency with
`f·2^7 < 1 MHz ≤ f·2^8` is accepted with `R = 8`, and `FrequencyTooLow`
is raised exactly when `f·2^8 < 1 MHz`.  For 999,999 Hz the loop picks
`R = 1`; for 500,000 Hz it picks `R = 1` as well (since
`500,000 · 2 = 1 MHz` already suffices — not `R = 2` as claimed); 3,900 Hz
is rejected (`3,900 · 2^8 = 998,400 < 1 MHz`), while 3,906.25 Hz is
accepted with `R = 8`. -/
theorem C2_rdiv_selection_amended :
    (∀ f : ℚ, 0 < f →
      (rdiv_loop 9 f 0).1 = f * 2 ^ (rdiv_loop 9 f 0).2 ∧
      (rdiv_loop 9 f 0).2 ≤ 8 ∧
      (∀ r, r < (rdiv_loop 9 f 0).2 → f * 2 ^ r < 1000000) ∧
      ((rdiv_loop 9 f 0).2 ≤ 7 → 1000000 ≤ f * 2 ^ (rdiv_loop 9 f 0).2) ∧
      (∀ crystal_frequency frequency_correction : ℚ, f * 2 ^ 8 < 1000000 →
        clock_source_set_clock crystal_frequency frequency_correction f = none)) ∧
    (rdiv_loop 9 999999 0).2 = 1 ∧
    (rdiv_loop 9 500000 0).2 = 1 ∧
    clock_source_set_clock SI5351_FREQ SI5351_FREQ_CORR 3900 = none ∧
    (clock_source_set_clock SI5351_FREQ SI5351_FREQ_CORR (15625 / 4)).map ClockParams.rdiv
      = some 8 := by
  refine ⟨?_, ?_, ?_, ?_, ?_⟩
  · intro f hf
    obtain ⟨h1, -, h3, h4, h5⟩ := rdiv_loop_spec 9 f 0 (by omega)
    have hR : (rdiv_loop 9 f 0).2 ≤ 8 := by
      rcases h3 with h | h
      · exact h
      · omega
    refine ⟨by simpa using h1, hR, ?_, ?_, ?_⟩
    · intro r hr
      simpa using h4 r (Nat.zero_le r) hr
    · intro h7
      have := h5 h7
      rw [h1] at this
      simpa using this
    · intro xtal corr hlow
      unfold clock_source_set_clock
      have hlt : (rdiv_loop 9 f 0).1 < 1000000 := by
        rw [h1]
        simp only [Nat.sub_zero]
        calc f * 2 ^ (rdiv_loop 9 f 0).2 ≤ f * 2 ^ 8 := by
              apply mul_le_mul_of_nonneg_left _ (le_of_lt hf)
              exact pow_le_pow_right₀ (by norm_num) hR
        _ < 1000000 := hlow
      rw [if_pos hlt]
  · with_unfolding_all rfl
  · with_unfolding_all rfl
  · with_unfolding_all rfl
  · with_unfolding_all rfl

/-- C2 witness: the amended statement applied at 999,999 Hz — the loop
doubles once, giving the returned frequency `999,999 · 2^1`. -/
theorem C2_rdiv_selection_amended_witness :
    (rdiv_loop 9 (999999 : ℚ) 0).1 = 999999 * 2 ^ (rdiv_loop 9 (999999 : ℚ) 0).2 :=
  (C2_rdiv_selection_amended.1 999999 (by norm_num)).1

set_option maxRecDepth 100000 in
/-- C2 counterexample: `set_clock(index, 500,000 Hz)` succeeds with
`R = 1`, not `R = 2` — doubling once already reaches
`500,000 · 2 = 1,000,000 ≥ 1 MHz`. -/
theorem C2_rdiv_500kHz_counterexample :
    clock_source_set_clock SI5351_FREQ SI5351_FREQ_CORR 500000
      = some ⟨1, 900, 33, 49657, 150000⟩ ∧ (1 : ℕ) ≠ 2 :=
  ⟨by with_unfolding_all rfl, by norm_num⟩

/-- When the oracle answers every chunk request of one section with its
full requested length, the chunk loop succeeds and consumes exactly the
planned number of transfers. -/
theorem chunk_loop_full (oracle : ℕ → ℤ) :
    ∀ fuel nleft k, nleft ≤ fuel →
    (∀ j, j < (chunk_plan_loop fuel nleft).length →
      oracle (k + j) = ((chunk_plan_loop fuel nleft).getD j 0 : ℤ)) →
    chunk_loop oracle fuel k nleft = some (k + (chunk_plan_loop fuel nleft).length) := by
  intro fuel
  induction fuel with
  | zero =>
    intro nleft k hle _
    have h0 : nleft = 0 := by omega
    simp [chunk_loop, chunk_plan_loop, h0]
  | succ fuel ih =>
    intro nleft k hle hor
    by_cases h0 : nleft = 0
    · simp [chunk_loop, chunk_plan_loop, h0]
    · set wl : ℕ := if nleft > 2048 then 2048 else nleft with hwl
      have hplan : chunk_plan_loop (fuel + 1) nleft
          = wl :: chunk_plan_loop fuel (nleft - wl) := by
        rw [chunk_plan_loop, if_neg h0]
      have hw0 : oracle k = (wl : ℤ) := by
        have h := hor 0 (by rw [hplan]; simp)
        rw [hplan] at h
        simpa using h
      rw [chunk_loop, if_neg h0]
      dsimp only
      rw [← hwl]
      rw [if_neg (show ¬ oracle k < 0 by rw [hw0]; exact not_lt.mpr (Int.natCast_nonneg wl))]
      rw [if_neg (show ¬ oracle k ≠ (wl : ℤ) by rw [hw0]; simp)]
      have hrec := ih (nleft - wl) (k + 1)
        (by rw [hwl]; split_ifs <;> omega)
        (by
          intro j hj
          have h := hor (j + 1) (by rw [hplan]; simp; omega)
          rw [hplan] at h
          have he : k + 1 + j = k + (j + 1) := by omega
          rw [he]
          simpa using h)
      rw [hrec, hplan, List.length_cons]
      have he : k + 1 + (chunk_plan_loop fuel (nleft - wl)).length
          = k + ((chunk_plan_loop fuel (nleft - wl)).length + 1) := by omega
      rw [he]

/-- When the oracle first deviates from the plan inside one section — in
particular when it moves fewer bytes than requested — the chunk loop
fails. -/
theorem chunk_loop_deviates (oracle : ℕ → ℤ) :
    ∀ fuel nleft k jf, nleft ≤ fuel → jf < (chunk_plan_loop fuel nleft).length →
    (∀ j, j < jf → oracle (k + j) = ((chunk_plan_loop fuel nleft).getD j 0 : ℤ)) →
    oracle (k + jf) ≠ ((chunk_plan_loop fuel nleft).getD jf 0 : ℤ) →
    chunk_loop oracle fuel k nleft = none := by
  intro fuel
  induction fuel with
  | zero =>
    intro nleft k jf hle hjf _ _
    have h0 : nleft = 0 := by omega
    rw [chunk_plan_loop] at hjf
    simp at hjf
  | succ fuel ih =>
    intro nleft k jf hle hjf hpre hbad
    by_cases h0 : nleft = 0
    · rw [chunk_plan_loop, if_pos h0] at hjf
      simp at hjf
    · set wl : ℕ := if nleft > 2048 then 2048 else nleft with hwl
      have hplan : chunk_plan_loop (fuel + 1) nleft
          = wl :: chunk_plan_loop fuel (nleft - wl) := by
        rw [chunk_plan_loop, if_neg h0]
      rw [chunk_loop, if_neg h0]
      dsimp only
      rw [← hwl]
      rcases Nat.eq_zero_or_pos jf with hj0 | hjpos
      · subst hj0
        rw [hplan] at hbad
        simp at hbad
        by_cases hneg : oracle k < 0
        · rw [if_pos hneg]
        · rw [if_neg hneg, if_pos (by simpa using hbad)]
      · have hw0 : oracle k = (wl : ℤ) := by
          have h := hpre 0 hjpos
          rw [hplan] at h
          simpa using h
        rw [if_neg (show ¬ oracle k < 0 by
          rw [hw0]; exact not_lt.mpr (Int.natCast_nonneg wl))]
        rw [if_neg (show ¬ oracle k ≠ (wl : ℤ) by rw [hw0]; simp)]
        apply ih (nleft - wl) (k + 1) (jf - 1) (by rw [hwl]; split_ifs <;> omega)
        · rw [hplan, List.length_cons] at hjf
          omega
        · intro j hj
          have h := hpre (j + 1) (by omega)
          rw [hplan] at h
          have he : k + 1 + j = k + (j + 1) := by omega
          rw [he]
          simpa using h
        · have he : k + 1 + (jf - 1) = k + jf := by omega
          rw [he]
          intro hcon
          apply hbad
          rw [hplan]
          have hg : (wl :: chunk_plan_loop fuel (nleft - wl)).getD jf 0
              = (chunk_plan_loop fuel (nleft - wl)).getD (jf - 1) 0 := by
            rcases Nat.exists_eq_add_of_lt hjpos with ⟨j1, hj1⟩
            have hje : jf = j1 + 1 := by omega
            subst hje
            simp
          rw [hg]
          exact hcon

/-- When the oracle answers every planned chunk of every section in full,
the section walk reaches the terminator with exactly the planned number of
transfers, and the entry and checksum words are readable there. -/
theorem transfer_sections_full (image : List ℕ) (oracle : ℕ → ℤ) :
    ∀ fuel p k plan, chunk_plan image fuel p = some plan →
    (∀ j, j < plan.length → oracle (k + j) = (plan.getD j 0 : ℤ)) →
    ∃ q, transfer_sections image oracle fuel p k = .done q (k + plan.length) ∧
      (read_word image (q + 4)).isSome ∧ (read_word image (q + 8)).isSome := by
  intro fuel
  induction fuel with
  | zero =>
    intro p k plan hplan _
    rw [chunk_plan] at hplan
    cases hplan
  | succ fuel ih =>
    intro p k plan hplan hor
    rw [chunk_plan] at hplan
    rw [transfer_sections]
    cases hread : read_word image p with
    | none =>
      rw [hread] at hplan
      cases hplan
    | some loadSz =>
      rw [hread] at hplan
      dsimp only at hplan ⊢
      by_cases hz : loadSz = 0
      · rw [if_pos hz] at hplan
        cases hrd1 : read_word image (p + 4) with
        | none => rw [hrd1] at hplan; cases hplan
        | some e =>
          cases hrd2 : read_word image (p + 8) with
          | none => rw [hrd1, hrd2] at hplan; cases hplan
          | some c =>
            rw [hrd1, hrd2] at hplan
            dsimp only at hplan
            rw [Option.some_inj] at hplan
            subst hplan
            rw [if_pos hz]
            exact ⟨p, by simp, by simp [hrd1], by simp [hrd2]⟩
      · rw [if_neg hz] at hplan
        rw [if_neg hz]
        cases hrd1 : read_word image (p + 4) with
        | none => rw [hrd1] at hplan; cases hplan
        | some addr =>
          rw [hrd1] at hplan
          dsimp only at hplan ⊢
          by_cases hb : image.length < p + 8 + 4 * loadSz
          · rw [if_pos hb] at hplan
            cases hplan
          · rw [if_neg hb] at hplan
            rw [if_neg hb]
            cases hrest : chunk_plan image fuel (p + 8 + 4 * loadSz) with
            | none => rw [hrest] at hplan; cases hplan
            | some rest =>
              rw [hrest] at hplan
              dsimp only at hplan
              rw [Option.some_inj] at hplan
              subst hplan
              have hseg := chunk_loop_full oracle (4 * loadSz) (4 * loadSz) k (le_refl _)
                (by
                  intro j hj
                  have h := hor j (by
                    rw [List.length_append]
                    omega)
                  rwa [List.getD_append _ _ _ _ hj] at h)
              rw [hseg]
              dsimp only
              obtain ⟨q, hq, hr1, hr2⟩ := ih (p + 8 + 4 * loadSz)
                (k + (chunk_plan_loop (4 * loadSz) (4 * loadSz)).length) rest hrest
                (by
                  intro j hj
                  have h := hor ((chunk_plan_loop (4 * loadSz) (4 * loadSz)).length + j) (by
                    rw [List.length_append]
                    omega)
                  rw [List.getD_append_right _ _ _ _ (Nat.le_add_right _ _)] at h
                  simp only [Nat.add_sub_cancel_left] at h
                  rw [Nat.add_assoc]
                  exact h)
              refine ⟨q, ?_, hr1, hr2⟩
              rw [hq, List.length_append, Nat.add_assoc]

/-- When the oracle first deviates from the plan at some section chunk —
in particular on a short transfer — the section walk fails. -/
theorem transfer_sections_deviates (image : List ℕ) (oracle : ℕ → ℤ) :
    ∀ fuel p k plan jf, chunk_plan image fuel p = some plan →
    jf < plan.length →
    (∀ j, j < jf → oracle (k + j) = (plan.getD j 0 : ℤ)) →
    oracle (k + jf) ≠ (plan.getD jf 0 : ℤ) →
    transfer_sections image oracle fuel p k = .fail := by
  intro fuel
  induction fuel with
  | zero =>
    intro p k plan jf hplan _ _ _
    rw [chunk_plan] at hplan
    cases hplan
  | succ fuel ih =>
    intro p k plan jf hplan hjf hpre hbad
    rw [chunk_plan] at hplan
    rw [transfer_sections]
    cases hread : read_word image p with
    | none =>
      rw [hread] at hplan
      cases hplan
    | some loadSz =>
      rw [hread] at hplan
      dsimp only at hplan ⊢
      by_cases hz : loadSz = 0
      · rw [if_pos hz] at hplan
        cases hrd1 : read_word image (p + 4) with
        | none => rw [hrd1] at hplan; cases hplan
        | some e =>
          cases hrd2 : read_word image (p + 8) with
          | none => rw [hrd1, hrd2] at hplan; cases hplan
          | some c =>
            rw [hrd1, hrd2] at hplan
            dsimp only at hplan
            rw [Option.some_inj] at hplan
            subst hplan
            simp at hjf
      · rw [if_neg hz] at hplan
        rw [if_neg hz]
        cases hrd1 : read_word image (p + 4) with
        | none => rw [hrd1] at hplan; cases hplan
        | some addr =>
          rw [hrd1] at hplan
          dsimp only at hplan ⊢
          by_cases hb : image.length < p + 8 + 4 * loadSz
          · rw [if_pos hb] at hplan
            cases hplan
          · rw [if_neg hb] at hplan
            rw [if_neg hb]
            cases hrest : chunk_plan image fuel (p + 8 + 4 * loadSz) with
            | none => rw [hrest] at hplan; cases hplan
            | some rest =>
              rw [hrest] at hplan
              dsimp only at hplan
              rw [Option.some_inj] at hplan
              subst hplan
              by_cases hin : jf < (chunk_plan_loop (4 * loadSz) (4 * loadSz)).length
              · have hfail := chunk_loop_deviates oracle (4 * loadSz) (4 * loadSz) k jf
                  (le_refl _) hin
                  (by
                    intro j hj
                    have h := hpre j hj
                    rwa [List.getD_append _ _ _ _ (by omega)] at h)
                  (by
                    intro hcon
                    apply hbad
                    rwa [List.getD_append _ _ _ _ hin])
                rw [hfail]
              · push_neg at hin
                have hseg := chunk_loop_full oracle (4 * loadSz) (4 * loadSz) k (le_refl _)
                  (by
                    intro j hj
                    have h := hpre j (by omega)
                    rwa [List.getD_append _ _ _ _ hj] at h)
                rw [hseg]
                dsimp only
                apply ih (p + 8 + 4 * loadSz)
                  (k + (chunk_plan_loop (4 * loadSz) (4 * loadSz)).length) rest
                  (jf - (chunk_plan_loop (4 * loadSz) (4 * loadSz)).length) hrest
                · rw [List.length_append] at hjf
                  omega
                · intro j hj
                  have h := hpre ((chunk_plan_loop (4 * loadSz) (4 * loadSz)).length + j)
                    (by omega)
                  rw [List.getD_append_right _ _ _ _ (Nat.le_add_right _ _)] at h
                  simp only [Nat.add_sub_cancel_left] at h
                  rw [Nat.add_assoc]
                  exact h
                · have he : k + (chunk_plan_loop (4 * loadSz) (4 * loadSz)).length
                      + (jf - (chunk_plan_loop (4 * loadSz) (4 * loadSz)).length)
                      = k + jf := by omega
                  rw [he]
                  intro hcon
                  apply hbad
                  rw [List.getD_append_right _ _ _ _ hin]
                  exact hcon

/-- C9: during firmware transfer a control transfer that moves fewer bytes
than requested within a section is fatal — `transfer_image` (and hence
`load_image`) returns -1 — while the final zero-length control transfer to
the entry address is not even consulted for the result: when every section
chunk is answered in full, `transfer_image` and `load_image` return 0
whatever the oracle answers for the final transfer (the C code only logs
`usb_warning` for it). -/
theorem C9_short_transfer_fatal_final_warning (image : List ℕ) (oracle : ℕ → ℤ)
    (plan : List ℕ) (hplan : chunk_plan image image.length 4 = some plan) :
    ((∀ j, j < plan.length → oracle j = (plan.getD j 0 : ℤ)) →
      transfer_image image oracle = some 0 ∧
      (validate_image image = some true → load_image image oracle = some 0)) ∧
    (∀ jf, jf < plan.length → (∀ j, j < jf → oracle j = (plan.getD j 0 : ℤ)) →
      0 ≤ oracle jf → oracle jf < (plan.getD jf 0 : ℤ) →
      transfer_image image oracle = some (-1) ∧
      (validate_image image = some true → load_image image oracle = some (-1))) := by
  constructor
  · intro hor
    obtain ⟨q, hq, hr1, hr2⟩ := transfer_sections_full image oracle image.length 4 0 plan
      hplan (by intro j hj; simpa using hor j hj)
    have htr : transfer_image image oracle = some 0 := by
      rw [transfer_image, hq]
      obtain ⟨e, he⟩ := Option.isSome_iff_exists.mp hr1
      obtain ⟨c, hc⟩ := Option.isSome_iff_exists.mp hr2
      dsimp only
      rw [he, hc]
    refine ⟨htr, fun hv => ?_⟩
    rw [load_image, hv, htr]
  · intro jf hjf hpre h0 hlt
    have hfail := transfer_sections_deviates image oracle image.length 4 0 plan jf hplan hjf
      (by intro j hj; simpa using hpre j hj)
      (by simpa using ne_of_lt hlt)
    have htr : transfer_image image oracle = some (-1) := by
      rw [transfer_image, hfail]
    refine ⟨htr, fun hv => ?_⟩
    rw [load_image, hv, htr]

/-- C9 witness: a minimal image — one section of a single word, answered
in full (4 bytes) by every transfer — loads successfully. -/
theorem C9_short_transfer_fatal_final_warning_witness :
    transfer_image
      ([67, 89, 28, 176] ++ word_bytes 1 ++ word_bytes 0 ++ word_bytes 5 ++ word_bytes 0
        ++ word_bytes 0 ++ word_bytes 5) (fun _ => 4) = some 0 :=
  ((C9_short_transfer_fatal_final_warning
      ([67, 89, 28, 176] ++ word_bytes 1 ++ word_bytes 0 ++ word_bytes 5 ++ word_bytes 0
        ++ word_bytes 0 ++ word_bytes 5) (fun _ => 4) [4] (by rfl)).1
    (by
      intro j hj
      have hj0 : j = 0 := by simpa using hj
      subst hj0
      rfl)).1

/-- Every `tuner_write_value` call of `tuner_apply_pll_parameters`
satisfies the runtime assertions, whichever way the lock check goes. -/
theorem tuner_apply_pll_write_calls_ok :
    ∀ locked : Bool, ∀ c ∈ tuner_apply_pll_write_calls locked,
      tuner_write_value_asserts c.1 c.2 := by
  intro locked
  cases locked <;> decide

/-- Every `tuner_write_value` call of `tuner_set_pll` satisfies the
runtime assertions. -/
theorem tuner_set_pll_write_calls_ok (xtal_frequency refdiv : ℕ) (locked : Bool)
    (frequency : ℚ) :
    ∀ c ∈ tuner_set_pll_write_calls xtal_frequency refdiv locked frequency,
      tuner_write_value_asserts c.1 c.2 := by
  intro c hc
  unfold tuner_set_pll_write_calls at hc
  cases h : tuner_compute_pll_parameters xtal_frequency refdiv frequency with
  | none =>
    rw [h] at hc
    simp at hc
  | some p =>
    rw [h] at hc
    exact tuner_apply_pll_write_calls_ok locked c hc

/-- The write calls of one calibration attempt body plus those of all the
remaining attempts satisfy the assertions. -/
theorem tuner_calibrate_go_write_calls_ok (xtal_frequency refdiv : ℕ) (locks : ℕ → Bool)
    (cal_read : ℕ → ℕ) :
    ∀ fuel i, ∀ c ∈ (tuner_calibrate_go xtal_frequency refdiv locks cal_read fuel i).2,
      tuner_write_value_asserts c.1 c.2 := by
  intro fuel
  induction fuel with
  | zero =>
    intro i c hc
    simp [tuner_calibrate_go] at hc
  | succ fuel ih =>
    intro i c hc
    rw [tuner_calibrate_go] at hc
    cases h : tuner_compute_pll_parameters xtal_frequency refdiv
        CALIBRATION_LO_FREQUENCY with
    | none =>
      rw [h] at hc
      dsimp only at hc
      simp only [List.mem_cons, List.not_mem_nil, or_false] at hc
      rcases hc with rfl | rfl | rfl <;> decide
    | some p =>
      rw [h] at hc
      dsimp only at hc
      by_cases hok : cal_code_ok (cal_code_of cal_read i)
      · rw [if_pos (show r82xx_bitrev (cal_read i) &&& 15 ≠ 0
            ∧ r82xx_bitrev (cal_read i) &&& 15 ≠ 15 from ⟨hok.1, hok.2⟩)] at hc
        dsimp only at hc
        rw [List.mem_append, List.mem_append] at hc
        rcases hc with (hc | hc) | hc
        · simp only [List.mem_cons, List.not_mem_nil, or_false] at hc
          rcases hc with rfl | rfl | rfl <;> decide
        · exact tuner_apply_pll_write_calls_ok (locks i) c hc
        · simp only [List.mem_cons, List.not_mem_nil, or_false] at hc
          rcases hc with rfl | rfl | rfl <;> decide
      · rw [if_neg (show ¬ (r82xx_bitrev (cal_read i) &&& 15 ≠ 0
            ∧ r82xx_bitrev (cal_read i) &&& 15 ≠ 15) from
            fun hcon => hok ⟨hcon.1, hcon.2⟩)] at hc
        dsimp only at hc
        rw [List.mem_append] at hc
        rcases hc with hc | hc
        · rw [List.mem_append, List.mem_append] at hc
          rcases hc with (hc | hc) | hc
          · simp only [List.mem_cons, List.not_mem_nil, or_false] at hc
            rcases hc with rfl | rfl | rfl <;> decide
          · exact tuner_apply_pll_write_calls_ok (locks i) c hc
          · simp only [List.mem_cons, List.not_mem_nil, or_false] at hc
            rcases hc with rfl | rfl | rfl <;> decide
        · exact ih (i + 1) c hc

/-- C10: every `tuner_write_value` call reachable through the public tuner
API — the LNA/mixer/VGA gain and AGC setters, the IF-bandwidth setter
(which makes none), `tuner_set_frequency`'s PLL programming, and
`tuner_calibrate` — passes a descriptor and value satisfying both runtime
assertions of `tuner_write_value`: the shifted value has no bits outside
the mask, and the mask covers the shifted low bit.  So no assertion
failure is reachable from the public tuner operations. -/
theorem C10_write_value_asserts_reachable :
    (∀ gain : ℤ, ∀ c ∈ tuner_set_lna_gain_write_calls gain,
      tuner_write_value_asserts c.1 c.2) ∧
    (∀ agc : ℤ, ∀ c ∈ tuner_set_lna_agc_write_calls agc,
      tuner_write_value_asserts c.1 c.2) ∧
    (∀ gain : ℤ, ∀ c ∈ tuner_set_mixer_gain_write_calls gain,
      tuner_write_value_asserts c.1 c.2) ∧
    (∀ agc : ℤ, ∀ c ∈ tuner_set_mixer_agc_write_calls agc,
      tuner_write_value_asserts c.1 c.2) ∧
    (∀ gain : ℤ, ∀ c ∈ tuner_set_vga_gain_write_calls gain,
      tuner_write_value_asserts c.1 c.2) ∧
    (∀ bandwidth : ℕ, ∀ c ∈ tuner_set_if_bandwidth_write_calls bandwidth,
      tuner_write_value_asserts c.1 c.2) ∧
    (∀ (xtal_frequency if_frequency refdiv : ℕ) (locked : Bool) (frequency : ℚ),
      ∀ c ∈ tuner_set_frequency_write_calls xtal_frequency if_frequency refdiv locked
        frequency, tuner_write_value_asserts c.1 c.2) ∧
    (∀ (xtal_frequency refdiv : ℕ) (locks : ℕ → Bool) (cal_read : ℕ → ℕ),
      ∀ c ∈ (tuner_calibrate xtal_frequency refdiv locks cal_read).2,
      tuner_write_value_asserts c.1 c.2) := by
  refine ⟨?_, ?_, ?_, ?_, ?_, ?_, ?_, ?_⟩
  · intro gain c hc
    unfold tuner_set_lna_gain_write_calls at hc
    cases h : tuner_lna_gains_table.findIdx? (· == gain) with
    | none => rw [h] at hc; simp at hc
    | some idx =>
      rw [h] at hc
      have hlt : idx < 16 := (List.findIdx?_eq_some_iff_findIdx_eq.mp h).1
      simp at hc
      subst hc
      interval_cases idx <;> decide
  · intro agc c hc
    unfold tuner_set_lna_agc_write_calls at hc
    simp at hc
    subst hc
    by_cases h : agc = 0 <;> simp [h] <;> decide
  · intro gain c hc
    unfold tuner_set_mixer_gain_write_calls at hc
    cases h : tuner_mixer_gains_table.findIdx? (· == gain) with
    | none => rw [h] at hc; simp at hc
    | some idx =>
      rw [h] at hc
      have hlt : idx < 16 := (List.findIdx?_eq_some_iff_findIdx_eq.mp h).1
      simp at hc
      subst hc
      interval_cases idx <;> decide
  · intro agc c hc
    unfold tuner_set_mixer_agc_write_calls at hc
    simp at hc
    subst hc
    by_cases h : agc = 0 <;> simp [h] <;> decide
  · intro gain c hc
    unfold tuner_set_vga_gain_write_calls at hc
    cases h : tuner_vga_gains_table.findIdx? (· == gain) with
    | none => rw [h] at hc; simp at hc
    | some idx =>
      rw [h] at hc
      have hlt : idx < 16 := (List.findIdx?_eq_some_iff_findIdx_eq.mp h).1
      simp at hc
      subst hc
      interval_cases idx <;> decide
  · intro bandwidth c hc
    simp [tuner_set_if_bandwidth_write_calls] at hc
  · intro xtal if_freq refdiv locked f c hc
    exact tuner_set_pll_write_calls_ok xtal refdiv locked _ c hc
  · intro xtal refdiv locks cal_read c hc
    exact tuner_calibrate_go_write_calls_ok xtal refdiv locks cal_read 5 0 c hc

/-- C10 witness: the single write call of `tuner_set_lna_gain 30` — index
15 into `LNA_GAIN` — satisfies both assertions. -/
theorem C10_write_value_asserts_reachable_witness :
    tuner_write_value_asserts R820T2_LNA_GAIN 15 :=
  C10_write_value_asserts_reachable.1 30 (R820T2_LNA_GAIN, 15) (by decide)

theorem covered_nil (j : ℕ) : covered [] j = false := rfl

theorem covered_cons (r : ℕ × ℕ) (rest : List (ℕ × ℕ)) (j : ℕ) :
    covered (r :: rest) j = (decide (r.1 ≤ j ∧ j < r.1 + r.2) || covered rest j) := rfl

/-- Bit test via the C idiom: `(1 << j) & n` is non-zero exactly when bit
`j` of `n` is set. -/
theorem one_shl_and_ne (n j : ℕ) : (1 <<< j) &&& n ≠ 0 ↔ n.testBit j = true := by
  constructor
  · intro h
    by_contra hb
    have hb' : n.testBit j = false := by simpa using hb
    apply h
    apply Nat.eq_of_testBit_eq
    intro i
    rw [Nat.testBit_land, Nat.zero_testBit]
    by_cases hij : i = j
    · subst hij
      simp [hb']
    · have hz : (1 <<< j).testBit i = false := by
        rw [Nat.shiftLeft_eq, one_mul]
        exact Nat.testBit_two_pow_of_ne (fun he => hij he.symm)
      simp [hz]
  · intro h hz
    have h2 : ((1 <<< j) &&& n).testBit j = false := by
      rw [hz]
      exact Nat.zero_testBit j
    rw [Nat.testBit_land, h] at h2
    rw [Nat.shiftLeft_eq, one_mul, Nat.testBit_two_pow_self] at h2
    simp at h2

/-- The register runs of the I2C loop cover a register `j` exactly when
the loop has an open run containing `j`, or `j` is a masked register not
yet reached: at the top (`i0 = 0`, no open run) the runs cover exactly
the masked registers below 32. -/
theorem i2c_runs_cover (mask : ℕ) :
    ∀ fuel i0 from?, i0 + fuel = 33 → i0 ≤ 32 →
    (∀ f, from? = some f → f ≤ i0) →
    ∀ j, covered (i2c_runs mask fuel i0 from?) j = true ↔
      ((∃ f, from? = some f ∧ f ≤ j ∧ j < i0) ∨
        (i0 ≤ j ∧ j < 32 ∧ (1 <<< j) &&& mask ≠ 0)) := by
  intro fuel
  induction fuel with
  | zero =>
    intro i0 from? hfi hi0 _ j
    omega
  | succ fuel ih =>
    intro i0 from? hfi hi0 hinv j
    cases from? with
    | some f =>
      have hf := hinv f rfl
      rw [i2c_runs]
      by_cases hstop : i0 = 32 ∨ (1 <<< i0) &&& mask = 0
      · rw [if_pos hstop]
        by_cases h32 : i0 = 32
        · subst h32
          rw [if_pos rfl]
          rw [covered_cons, covered_nil]
          simp only [Bool.or_false, decide_eq_true_eq]
          constructor
          · intro hc
            exact Or.inl ⟨f, rfl, hc.1, by omega⟩
          · intro hc
            rcases hc with ⟨f', hf', h1, h2⟩ | ⟨h1, h2, -⟩
            · cases hf'
              omega
            · omega
        · have hbit : (1 <<< i0) &&& mask = 0 := hstop.resolve_left h32
          rw [if_neg h32, covered_cons]
          simp only [Bool.or_eq_true, decide_eq_true_eq]
          have hrest := ih (i0 + 1) none (by omega) (by omega) (by simp) j
          constructor
          · intro hc
            rcases hc with hc | hc
            · exact Or.inl ⟨f, rfl, hc.1, by omega⟩
            · rcases hrest.mp hc with ⟨f', hf', -⟩ | ⟨h1, h2, h3⟩
              · cases hf'
              · exact Or.inr ⟨by omega, h2, h3⟩
          · intro hc
            rcases hc with ⟨f', hf', h1, h2⟩ | ⟨h1, h2, h3⟩
            · cases hf'
              exact Or.inl ⟨h1, by omega⟩
            · have hne : j ≠ i0 := fun he => h3 (he ▸ hbit)
              exact Or.inr (hrest.mpr (Or.inr ⟨by omega, h2, h3⟩))
      · rw [if_neg hstop]
        push_neg at hstop
        obtain ⟨h32, hbit⟩ := hstop
        have hrest := ih (i0 + 1) (some f) (by omega) (by omega)
          (by intro f' hf'; cases hf'; omega) j
        rw [show (if (some f).isSome = true then some f else some i0) = some f by simp]
        rw [hrest]
        constructor
        · rintro (⟨f', hf', h1, h2⟩ | ⟨h1, h2, h3⟩)
          · cases hf'
            by_cases hji : j = i0
            · subst hji
              exact Or.inr ⟨le_refl j, by omega, hbit⟩
            · exact Or.inl ⟨f, rfl, h1, by omega⟩
          · exact Or.inr ⟨by omega, h2, h3⟩
        · rintro (⟨f', hf', h1, h2⟩ | ⟨h1, h2, h3⟩)
          · cases hf'
            exact Or.inl ⟨f, rfl, h1, by omega⟩
          · by_cases hji : j = i0
            · subst hji
              exact Or.inl ⟨f, rfl, by omega, by omega⟩
            · exact Or.inr ⟨by omega, h2, h3⟩
    | none =>
      rw [i2c_runs]
      by_cases hstop : i0 = 32 ∨ (1 <<< i0) &&& mask = 0
      · rw [if_pos hstop]
        by_cases h32 : i0 = 32
        · subst h32
          rw [if_pos rfl, covered_nil]
          constructor
          · intro hc
            exact absurd hc (by decide)
          · rintro (⟨f', hf', -⟩ | ⟨h1, h2, -⟩)
            · cases hf'
            · omega
        · have hbit : (1 <<< i0) &&& mask = 0 := hstop.resolve_left h32
          rw [if_neg h32]
          have hrest := ih (i0 + 1) none (by omega) (by omega) (by simp) j
          rw [hrest]
          constructor
          · rintro (⟨f', hf', -⟩ | ⟨h1, h2, h3⟩)
            · cases hf'
            · exact Or.inr ⟨by omega, h2, h3⟩
          · rintro (⟨f', hf', -⟩ | ⟨h1, h2, h3⟩)
            · cases hf'
            · have hne : j ≠ i0 := fun he => h3 (he ▸ hbit)
              exact Or.inr ⟨by omega, h2, h3⟩
      · rw [if_neg hstop]
        push_neg at hstop
        obtain ⟨h32, hbit⟩ := hstop
        have hrest := ih (i0 + 1) (some i0) (by omega) (by omega)
          (by intro f' hf'; cases hf'; omega) j
        rw [show (if (none : Option ℕ).isSome = true then (none : Option ℕ) else some i0)
          = some i0 by simp]
        rw [hrest]
        constructor
        · rintro (⟨f', hf', h1, h2⟩ | ⟨h1, h2, h3⟩)
          · cases hf'
            have hji : j = i0 := by omega
            subst hji
            exact Or.inr ⟨le_refl j, by omega, hbit⟩
          · exact Or.inr ⟨by omega, h2, h3⟩
        · rintro (⟨f', hf', -⟩ | ⟨h1, h2, h3⟩)
          · cases hf'
          · by_cases hji : j = i0
            · subst hji
              exact Or.inl ⟨j, rfl, le_refl j, by omega⟩
            · exact Or.inr ⟨by omega, h2, h3⟩

/-- Top-level form of the run-cover lemma: the runs of a 32-bit mask
cover exactly the masked registers (the set bits below 32). -/
theorem i2c_runs_cover_top (mask j : ℕ) :
    covered (i2c_runs mask 33 0 none) j = true ↔ j < 32 ∧ mask.testBit j = true := by
  rw [i2c_runs_cover mask 33 0 none (by omega) (by omega) (by simp) j]
  constructor
  · rintro (⟨f, hf, -⟩ | ⟨-, h2, h3⟩)
    · cases hf
    · exact ⟨h2, (one_shl_and_ne mask j).mp h3⟩
  · rintro ⟨h1, h2⟩
    exact Or.inr ⟨Nat.zero_le j, h1, (one_shl_and_ne mask j).mpr h2⟩

theorem one_shl_testBit (r i : ℕ) : (1 <<< r).testBit i = decide (r = i) := by
  rw [Nat.shiftLeft_eq, one_mul]
  by_cases h : r = i
  · subst h
    simp [Nat.testBit_two_pow_self]
  · simp [Nat.testBit_two_pow_of_ne h, h]

theorem mask32_xor_testBit (m i : ℕ) (hi : i < 32) :
    ((4294967295 : ℕ) ^^^ m).testBit i = !m.testBit i := by
  rw [Nat.testBit_xor]
  rw [show (4294967295 : ℕ) = 2 ^ 32 - 1 by norm_num]
  rw [Nat.testBit_two_pow_sub_one]
  simp [hi]

theorem foldl_apply_read_run_dirty (dev : ℕ → ℕ → ℕ) (runs : List (ℕ × ℕ)) :
    ∀ s : TunerState,
      (runs.foldl (apply_read_run dev) s).registers_dirty_mask = s.registers_dirty_mask := by
  induction runs with
  | nil => intro s; rfl
  | cons r rest ih =>
    intro s
    rw [List.foldl_cons, ih]
    rfl

/-- One shadow operation changes the dirty bits of the 32 registers
exactly as the specification's pending predicate does. -/
theorem tuner_op_step_dirty (dev : ℕ → ℕ → ℕ) (s : TunerState) (op : TunerOp)
    (i : ℕ) (hi : i < 32) :
    (tuner_op_step dev s op).registers_dirty_mask.testBit i =
      pending_step (fun j => s.registers_dirty_mask.testBit j) op i := by
  cases op with
  | setVal w v =>
    show (s.registers_dirty_mask ||| 1 <<< w.reg).testBit i = _
    rw [Nat.testBit_lor, one_shl_testBit]
    simp only [pending_step]
    by_cases h : i = w.reg
    · subst h
      simp
    · have h' : w.reg ≠ i := fun hh => h hh.symm
      simp [h, h']
  | writeVal w v =>
    show ((s.registers_dirty_mask ||| 1 <<< w.reg) &&&
        (4294967295 ^^^ 1 <<< w.reg)).testBit i = _
    rw [Nat.testBit_land, Nat.testBit_lor, one_shl_testBit,
      mask32_xor_testBit _ _ hi, one_shl_testBit]
    simp only [pending_step]
    rw [show (tuner_write_value ⟨fun _ => 0, 0, 0⟩ w 0).2 = [(w.reg, 1)] from rfl]
    rw [covered_cons, covered_nil, Bool.or_false]
    by_cases h : i = w.reg
    · subst h
      simp
    · have h' : w.reg ≠ i := fun hh => h hh.symm
      have hno : ¬(w.reg ≤ i ∧ i < w.reg + 1) := by omega
      simp [h, h', hno]
  | writeRegs m =>
    show (s.registers_dirty_mask &&&
        (4294967295 ^^^ (m &&& R820T2_REGISTERS_WRITE_MASK))).testBit i = _
    rw [Nat.testBit_land, mask32_xor_testBit _ _ hi]
    simp only [pending_step]
    rw [show (tuner_write_registers ⟨fun _ => 0, 0, 0⟩ m).2 =
      i2c_runs (m &&& R820T2_REGISTERS_WRITE_MASK) 33 0 none from rfl]
    by_cases hb : (m &&& R820T2_REGISTERS_WRITE_MASK).testBit i = true
    · rw [if_pos ((i2c_runs_cover_top _ i).mpr ⟨hi, hb⟩)]
      simp [hb]
    · rw [if_neg (fun hc => hb ((i2c_runs_cover_top _ i).mp hc).2)]
      have hb' : (m &&& R820T2_REGISTERS_WRITE_MASK).testBit i = false := by
        simpa using hb
      simp [hb']
  | readVal w =>
    show (s.registers_dirty_mask &&&
        (4294967295 ^^^ (1 <<< (w.reg + 1) - 1))).testBit i = _
    rw [Nat.testBit_land, mask32_xor_testBit _ _ hi]
    rw [Nat.shiftLeft_eq, one_mul, Nat.testBit_two_pow_sub_one]
    simp only [pending_step]
    rw [covered_cons, covered_nil, Bool.or_false]
    by_cases hlt : i < w.reg + 1
    · have hc : (0 ≤ i ∧ i < 0 + (w.reg + 1)) := by omega
      simp [hlt, hc]
    · have hc : ¬(0 ≤ i ∧ i < 0 + (w.reg + 1)) := by omega
      simp [hlt, hc]
  | readRegs m =>
    show (((i2c_runs (m &&& R820T2_REGISTERS_READ_MASK) 33 0 none).foldl
        (apply_read_run dev) s).registers_dirty_mask &&&
        (4294967295 ^^^ (m &&& R820T2_REGISTERS_READ_MASK))).testBit i = _
    rw [foldl_apply_read_run_dirty]
    rw [Nat.testBit_land, mask32_xor_testBit _ _ hi]
    simp only [pending_step]
    rw [show (tuner_read_registers (fun _ _ => 0) ⟨fun _ => 0, 0, 0⟩ m).2 =
      i2c_runs (m &&& R820T2_REGISTERS_READ_MASK) 33 0 none from rfl]
    by_cases hb : (m &&& R820T2_REGISTERS_READ_MASK).testBit i = true
    · rw [if_pos ((i2c_runs_cover_top _ i).mpr ⟨hi, hb⟩)]
      simp [hb]
    · rw [if_neg (fun hc => hb ((i2c_runs_cover_top _ i).mp hc).2)]
      have hb' : (m &&& R820T2_REGISTERS_READ_MASK).testBit i = false := by
        simpa using hb
      simp [hb']

theorem pending_step_congr (p q : ℕ → Bool) (op : TunerOp) (j : ℕ) (h : p j = q j) :
    pending_step p op j = pending_step q op j := by
  cases op <;> simp only [pending_step] <;> rw [h]

theorem tuner_exec_dirty (dev : ℕ → ℕ → ℕ) :
    ∀ (ops : List TunerOp) (s : TunerState) (p : ℕ → Bool),
      (∀ j, j < 32 → s.registers_dirty_mask.testBit j = p j) →
      ∀ i, i < 32 →
        (tuner_exec dev s ops).registers_dirty_mask.testBit i = pending_after p ops i := by
  intro ops
  induction ops with
  | nil =>
    intro s p hp i hi
    exact hp i hi
  | cons op ops ih =>
    intro s p hp i hi
    show (tuner_exec dev (tuner_op_step dev s op) ops).registers_dirty_mask.testBit i =
      pending_after (pending_step p op) ops i
    apply ih
    · intro j hj
      rw [tuner_op_step_dirty dev s op j hj]
      exact pending_step_congr _ _ op j (hp j hj)
    · exact hi

/-- C8: for every sequence of tuner shadow operations starting from a
clean dirty mask, bit `i` of the dirty mask (for each of the 32 device
registers) is set exactly when the specification's pending predicate holds
for register `i`: `tuner_set_value` marks its register
written-but-not-flushed, a flush (`tuner_write_value`,
`tuner_write_registers`) clears exactly the registers its I2C runs wrote,
and a read (`tuner_read_value`, `tuner_read_registers`) clears exactly the
registers it read back from the device. -/
theorem C8_dirty_mask_invariant (dev : ℕ → ℕ → ℕ) (regs0 : ℕ → ℕ) (rc0 : ℕ)
    (ops : List TunerOp) (i : ℕ) (hi : i < 32) :
    (tuner_exec dev ⟨regs0, 0, rc0⟩ ops).registers_dirty_mask.testBit i =
      pending_after (fun _ => false) ops i := by
  apply tuner_exec_dirty dev ops ⟨regs0, 0, rc0⟩ (fun _ => false) _ i hi
  intro j _
  exact Nat.zero_testBit j

theorem C8_dirty_mask_invariant_witness :
    (5 : ℕ) < 32 ∧
    (tuner_exec (fun _ _ => 0) ⟨fun _ => 0, 0, 0⟩
        [TunerOp.setVal R820T2_LNA_GAIN 5,
         TunerOp.writeRegs 4294967295]).registers_dirty_mask.testBit 5 =
      pending_after (fun _ => false)
        [TunerOp.setVal R820T2_LNA_GAIN 5, TunerOp.writeRegs 4294967295] 5 :=
  ⟨by decide,
   C8_dirty_mask_invariant (fun _ _ => 0) (fun _ => 0) 0
     [TunerOp.setVal R820T2_LNA_GAIN 5, TunerOp.writeRegs 4294967295] 5 (by decide)⟩

theorem word_reconstruct (w : ℕ) :
    w % 256 + 256 * (w / 256 % 256) + 65536 * (w / 65536 % 256) +
      16777216 * (w / 16777216 % 256) = w % 4294967296 := by omega

/-- Reading the little-endian word stored right after a known prefix. -/
theorem read_word_at (pre : List ℕ) (w : ℕ) (suf : List ℕ) :
    read_word (pre ++ (word_bytes w ++ suf)) pre.length = some (w % 4294967296) := by
  rw [read_word]
  have hlen : (pre ++ (word_bytes w ++ suf)).length = pre.length + (4 + suf.length) := by
    simp [word_bytes]
    omega
  rw [if_pos (by omega)]
  have h0 : (pre ++ (word_bytes w ++ suf)).getD pre.length 0 = w % 256 := by
    rw [List.getD_append_right _ _ _ _ (le_refl _), Nat.sub_self]
    rfl
  have h1 : (pre ++ (word_bytes w ++ suf)).getD (pre.length + 1) 0 = w / 256 % 256 := by
    rw [List.getD_append_right _ _ _ _ (Nat.le_add_right _ _), Nat.add_sub_cancel_left]
    rfl
  have h2 : (pre ++ (word_bytes w ++ suf)).getD (pre.length + 2) 0 = w / 65536 % 256 := by
    rw [List.getD_append_right _ _ _ _ (Nat.le_add_right _ _), Nat.add_sub_cancel_left]
    rfl
  have h3 : (pre ++ (word_bytes w ++ suf)).getD (pre.length + 3) 0 =
      w / 16777216 % 256 := by
    rw [List.getD_append_right _ _ _ _ (Nat.le_add_right _ _), Nat.add_sub_cancel_left]
    rfl
  rw [h0, h1, h2, h3]
  exact congrArg some (word_reconstruct w)

/-- Once fewer than 12 bytes remain at offset `p`, the specification's
walk can never finish: the terminator's trailer would not fit, and a
non-empty section is always out of bounds. -/
theorem spec_walk_short (image : List ℕ) :
    ∀ fuel p c, image.length < p + 12 → spec_walk image fuel p c = none := by
  intro fuel
  induction fuel with
  | zero => intro p c _; rfl
  | succ fuel ih =>
    intro p c hshort
    rw [spec_walk]
    cases hr : read_word image p with
    | none => rfl
    | some loadSz =>
      dsimp only
      by_cases hz : loadSz = 0
      · subst hz
        rw [if_pos rfl]
        have h8 : read_word image (p + 8) = none := by
          rw [read_word, if_neg (by omega)]
        cases h4 : read_word image (p + 4) with
        | none => rw [h8]
        | some e => rw [h8]
      · rw [if_neg hz]
        cases h4 : read_word image (p + 4) with
        | none => rfl
        | some s =>
          dsimp only
          rw [if_pos (by omega)]

/-- The section walk of the code accepts exactly when the specification's
walk returns matching computed and expected checksums: the only divergence
point is a section payload ending exactly at `size - 8`, where the code
rejects at once and the specification's walk runs on but can never reach a
complete trailer. -/
theorem walk_agree (image : List ℕ) :
    ∀ fuel p c,
      (validate_sections image fuel p c = some true ↔
        ∃ s e, spec_walk image fuel p c = some (s, e) ∧ s = e) := by
  intro fuel
  induction fuel with
  | zero =>
    intro p c
    simp [validate_sections, spec_walk]
  | succ fuel ih =>
    intro p c
    rw [validate_sections, spec_walk]
    cases hr : read_word image p with
    | none => simp
    | some loadSz =>
      dsimp only
      by_cases hz : loadSz = 0
      · subst hz
        rw [if_pos rfl, if_pos rfl]
        cases h4 : read_word image (p + 4) with
        | none => simp
        | some entry =>
          dsimp only
          cases h8 : read_word image (p + 8) with
          | none => simp
          | some exp =>
            dsimp only
            constructor
            · intro h
              exact ⟨c, exp, rfl, of_decide_eq_true (Option.some.inj h)⟩
            · rintro ⟨s, e, hse, heq⟩
              have h1 := Option.some.inj hse
              have hc : c = s := congrArg Prod.fst h1
              have he : exp = e := congrArg Prod.snd h1
              have hce : c = exp := by rw [hc, he]; exact heq
              rw [hce]
              simp
      · rw [if_neg hz, if_neg hz]
        cases h4 : read_word image (p + 4) with
        | none => simp
        | some sec =>
          dsimp only
          by_cases hb : p + 8 + 4 * loadSz + 8 ≥ image.length
          · rw [if_pos hb]
            by_cases hgt : p + 8 + 4 * loadSz + 8 > image.length
            · rw [if_pos hgt]
              simp
            · rw [if_neg hgt]
              have heq : p + 8 + 4 * loadSz + 8 = image.length := by omega
              constructor
              · intro h
                exact absurd h (by simp)
              · rintro ⟨s, e, hse, -⟩
                exfalso
                cases hsum : sum_payload image loadSz (p + 8) c with
                | none =>
                  rw [hsum] at hse
                  dsimp only at hse
                  exact Option.noConfusion hse
                | some c2 =>
                  rw [hsum] at hse
                  dsimp only at hse
                  rw [spec_walk_short image fuel (p + 8 + 4 * loadSz) c2 (by omega)] at hse
                  exact Option.noConfusion hse
          · rw [if_neg hb]
            rw [if_neg (show ¬(p + 8 + 4 * loadSz + 8 > image.length) by omega)]
            cases hsum : sum_payload image loadSz (p + 8) c with
            | none => simp
            | some c2 =>
              dsimp only
              exact ih (p + 8 + 4 * loadSz) c2

/-- `validate_image` accepts exactly the images described by the
specification's acceptance conditions. -/
theorem validate_iff_spec (image : List ℕ) :
    validate_image image = some true ↔ spec_accepts image := by
  rw [validate_image]
  by_cases h0 : image.length < 10240
  · rw [if_pos h0]
    simp only [spec_accepts]
    constructor
    · intro h
      exact absurd h (by simp)
    · rintro ⟨h, -⟩
      omega
  · rw [if_neg h0]
    by_cases h1 : image.getD 0 0 = 67 ∧ image.getD 1 0 = 89
    · rw [if_neg (not_not_intro h1)]
      by_cases h2 : image.getD 2 0 = 28
      · rw [if_neg (not_not_intro h2)]
        by_cases h3 : image.getD 3 0 = 176
        · rw [if_neg (not_not_intro h3)]
          rw [walk_agree image image.length 4 0]
          simp only [spec_accepts]
          constructor
          · intro h
            exact ⟨by omega, h1.1, h1.2, h2, h3, h⟩
          · rintro ⟨-, -, -, -, -, h⟩
            exact h
        · rw [if_pos h3]
          simp only [spec_accepts]
          constructor
          · intro h
            exact absurd h (by simp)
          · rintro ⟨-, -, -, -, h3', -⟩
            exact absurd h3' h3
      · rw [if_pos h2]
        simp only [spec_accepts]
        constructor
        · intro h
          exact absurd h (by simp)
        · rintro ⟨-, -, -, h2', -⟩
          exact absurd h2' h2
    · rw [if_pos h1]
      simp only [spec_accepts]
      constructor
      · intro h
        exact absurd h (by simp)
      · rintro ⟨-, ha, hb, -⟩
        exact (h1 ⟨ha, hb⟩).elim

/-- C3: `validate_image` accepts a firmware image exactly when its size is
at least 10240 bytes, its first four bytes are `'C'`, `'Y'`, `0x1C`,
`0xB0`, every declared section's payload stays within `size - 8` (the
entry + checksum trailer), and the 32-bit wraparound sum of the payload
words equals the trailing checksum word — a file longer than the
accounted-for range only draws a warning; moreover, for every image with a
single payload word `W`, the computed checksum is `W` and validation
succeeds exactly when the trailing checksum word equals `W`. -/
theorem C3_checksum_validation :
    (∀ image, validate_image image = some true ↔ spec_accepts image) ∧
    (∀ A W E C pad, W < 4294967296 → C < 4294967296 →
      10240 ≤ 28 + List.length pad →
      spec_walk (single_word_image A W E C pad)
          (single_word_image A W E C pad).length 4 0 = some (W, C) ∧
      (validate_image (single_word_image A W E C pad) = some true ↔ C = W)) := by
  refine ⟨validate_iff_spec, ?_⟩
  intro A W E C pad hW hC hlen
  have hL : (single_word_image A W E C pad).length = 28 + pad.length := by
    simp [single_word_image, word_bytes]
    omega
  have e4 : single_word_image A W E C pad =
      [67, 89, 28, 176] ++ (word_bytes 1 ++
        (word_bytes A ++ word_bytes W ++ word_bytes 0 ++ word_bytes E ++
          word_bytes C ++ pad)) := by
    simp [single_word_image, List.append_assoc]
  have e8 : single_word_image A W E C pad =
      ([67, 89, 28, 176] ++ word_bytes 1) ++ (word_bytes A ++
        (word_bytes W ++ word_bytes 0 ++ word_bytes E ++ word_bytes C ++ pad)) := by
    simp [single_word_image, List.append_assoc]
  have e12 : single_word_image A W E C pad =
      ([67, 89, 28, 176] ++ word_bytes 1 ++ word_bytes A) ++ (word_bytes W ++
        (word_bytes 0 ++ word_bytes E ++ word_bytes C ++ pad)) := by
    simp [single_word_image, List.append_assoc]
  have e16 : single_word_image A W E C pad =
      ([67, 89, 28, 176] ++ word_bytes 1 ++ word_bytes A ++ word_bytes W) ++
        (word_bytes 0 ++ (word_bytes E ++ word_bytes C ++ pad)) := by
    simp [single_word_image, List.append_assoc]
  have e20 : single_word_image A W E C pad =
      ([67, 89, 28, 176] ++ word_bytes 1 ++ word_bytes A ++ word_bytes W ++
        word_bytes 0) ++ (word_bytes E ++ (word_bytes C ++ pad)) := by
    simp [single_word_image, List.append_assoc]
  have e24 : single_word_image A W E C pad =
      ([67, 89, 28, 176] ++ word_bytes 1 ++ word_bytes A ++ word_bytes W ++
        word_bytes 0 ++ word_bytes E) ++ (word_bytes C ++ pad) := by
    simp [single_word_image, List.append_assoc]
  have hread4 : read_word (single_word_image A W E C pad) 4 = some 1 := by
    rw [e4]
    have h := read_word_at [67, 89, 28, 176] 1
      (word_bytes A ++ word_bytes W ++ word_bytes 0 ++ word_bytes E ++
        word_bytes C ++ pad)
    rw [show List.length [67, 89, 28, 176] = 4 from rfl,
      Nat.mod_eq_of_lt (by norm_num)] at h
    exact h
  have hread8 : read_word (single_word_image A W E C pad) 8 =
      some (A % 4294967296) := by
    rw [e8]
    have h := read_word_at ([67, 89, 28, 176] ++ word_bytes 1) A
      (word_bytes W ++ word_bytes 0 ++ word_bytes E ++ word_bytes C ++ pad)
    have hp : ([67, 89, 28, 176] ++ word_bytes 1).length = 8 := by
      simp [word_bytes]
    rw [hp] at h
    exact h
  have hread12 : read_word (single_word_image A W E C pad) 12 = some W := by
    rw [e12]
    have h := read_word_at ([67, 89, 28, 176] ++ word_bytes 1 ++ word_bytes A) W
      (word_bytes 0 ++ word_bytes E ++ word_bytes C ++ pad)
    have hp : ([67, 89, 28, 176] ++ word_bytes 1 ++ word_bytes A).length = 12 := by
      simp [word_bytes]
    rw [hp, Nat.mod_eq_of_lt hW] at h
    exact h
  have hread16 : read_word (single_word_image A W E C pad) 16 = some 0 := by
    rw [e16]
    have h := read_word_at
      ([67, 89, 28, 176] ++ word_bytes 1 ++ word_bytes A ++ word_bytes W) 0
      (word_bytes E ++ word_bytes C ++ pad)
    have hp : ([67, 89, 28, 176] ++ word_bytes 1 ++ word_bytes A ++
        word_bytes W).length = 16 := by
      simp [word_bytes]
    rw [hp, Nat.zero_mod] at h
    exact h
  have hread20 : read_word (single_word_image A W E C pad) 20 =
      some (E % 4294967296) := by
    rw [e20]
    have h := read_word_at
      ([67, 89, 28, 176] ++ word_bytes 1 ++ word_bytes A ++ word_bytes W ++
        word_bytes 0) E (word_bytes C ++ pad)
    have hp : ([67, 89, 28, 176] ++ word_bytes 1 ++ word_bytes A ++ word_bytes W ++
        word_bytes 0).length = 20 := by
      simp [word_bytes]
    rw [hp] at h
    exact h
  have hread24 : read_word (single_word_image A W E C pad) 24 = some C := by
    rw [e24]
    have h := read_word_at
      ([67, 89, 28, 176] ++ word_bytes 1 ++ word_bytes A ++ word_bytes W ++
        word_bytes 0 ++ word_bytes E) C pad
    have hp : ([67, 89, 28, 176] ++ word_bytes 1 ++ word_bytes A ++ word_bytes W ++
        word_bytes 0 ++ word_bytes E).length = 24 := by
      simp [word_bytes]
    rw [hp, Nat.mod_eq_of_lt hC] at h
    exact h
  have hsum : sum_payload (single_word_image A W E C pad) 1 (4 + 8) 0 = some W := by
    show sum_payload (single_word_image A W E C pad) (0 + 1) (4 + 8) 0 = some W
    rw [sum_payload]
    rw [show (4 : ℕ) + 8 = 12 from rfl, hread12]
    dsimp only
    rw [sum_payload]
    rw [show w32 (0 + W) = W from by unfold w32; omega]
  have hstep2 : ∀ K', spec_walk (single_word_image A W E C pad) (K' + 1) 16 W =
      some (W, C) := by
    intro K'
    rw [spec_walk, hread16]
    dsimp only
    rw [if_pos rfl]
    rw [show (16 : ℕ) + 4 = 20 from rfl, show (16 : ℕ) + 8 = 24 from rfl]
    rw [hread20, hread24]
  obtain ⟨K, hK⟩ : ∃ K, (single_word_image A W E C pad).length = K + 1 + 1 :=
    ⟨(single_word_image A W E C pad).length - 2, by omega⟩
  have hwalk : spec_walk (single_word_image A W E C pad)
      (single_word_image A W E C pad).length 4 0 = some (W, C) := by
    rw [hK]
    rw [spec_walk, hread4]
    dsimp only
    rw [if_neg one_ne_zero]
    rw [show (4 : ℕ) + 4 = 8 from rfl, hread8]
    dsimp only
    rw [if_neg (show ¬(4 + 8 + 4 * 1 + 8 > (single_word_image A W E C pad).length)
      from by omega)]
    rw [hsum]
    dsimp only
    rw [show (4 : ℕ) + 8 + 4 * 1 = 16 from rfl]
    exact hstep2 K
  refine ⟨hwalk, ?_⟩
  rw [validate_iff_spec]
  simp only [spec_accepts]
  constructor
  · rintro ⟨-, -, -, -, -, s, e, hse, hseq⟩
    rw [hwalk] at hse
    have h1 := Option.some.inj hse
    have hs : W = s := congrArg Prod.fst h1
    have he : C = e := congrArg Prod.snd h1
    rw [← hs, ← he] at hseq
    exact hseq.symm
  · intro hCW
    exact ⟨by omega, rfl, rfl, rfl, rfl, W, C, hwalk, hCW.symm⟩

theorem C3_checksum_validation_witness :
    spec_walk (single_word_image 0 123 0 123 (List.replicate 10212 0))
        (single_word_image 0 123 0 123 (List.replicate 10212 0)).length 4 0 =
      some (123, 123) ∧
    (validate_image (single_word_image 0 123 0 123 (List.replicate 10212 0)) =
        some true ↔ (123 : ℕ) = 123) :=
  C3_checksum_validation.2 0 123 0 123 (List.replicate 10212 0)
    (by norm_num) (by norm_num) (by rw [List.length_replicate])

set_option maxRecDepth 100000 in
/-- Evaluation of the full synthesizer parameter computation at the
driver's sample-clock request of 32 MHz with the default crystal
frequency and frequency correction. -/
theorem set_clock_32MHz_eval :
    clock_source_set_clock SI5351_FREQ SI5351_FREQ_CORR 32000000 =
      some ⟨0, 28, 33, 46461, 254012⟩ := by
  with_unfolding_all rfl

theorem ra_inner_exit (f0 : ℚ) (maxDen h0 h1 k0 k1 an fuel m b c : ℕ) (delta : ℚ)
    (h : an < m) :
    ra_inner f0 maxDen h0 h1 k0 k1 an fuel m b c delta = (b, c, delta) := by
  cases fuel with
  | zero => rfl
  | succ fuel => rw [ra_inner, if_pos h]

/-- Exact error formula for a semiconvergent `hm/km = (m·h1+h0)/(m·k1+k0)`
against `f0 = (h1·x+h0)/(k1·x+k0)`: the distance is
`(x − m) / (km · (k1·x + k0))`. -/
theorem ra_semiconv_err (f0 : ℚ) (h0 h1 k0 k1 m : ℕ) (x : ℚ)
    (hk1 : 1 ≤ k1) (hm : 1 ≤ m)
    (hdet : h1 * k0 + 1 = h0 * k1 ∨ h0 * k1 + 1 = h1 * k0)
    (hmx : (m : ℚ) ≤ x)
    (hx1 : (1 : ℚ) ≤ x)
    (hf0x : f0 * ((k1 : ℚ) * x + k0) = (h1 : ℚ) * x + h0) :
    |((m * h1 + h0 : ℕ) : ℚ) / ((m * k1 + k0 : ℕ) : ℚ) - f0| =
      (x - m) / (((m * k1 + k0 : ℕ) : ℚ) * ((k1 : ℚ) * x + k0)) := by
  have hk1Q : (1 : ℚ) ≤ (k1 : ℚ) := by exact_mod_cast hk1
  have hmQ : (1 : ℚ) ≤ (m : ℚ) := by exact_mod_cast hm
  have hk0Q : (0 : ℚ) ≤ (k0 : ℚ) := Nat.cast_nonneg k0
  have hkx : (0 : ℚ) < (k1 : ℚ) * x + k0 := by nlinarith
  have hkm1 : 1 ≤ m * k1 + k0 := by
    have := Nat.mul_le_mul hm hk1
    omega
  have hMKQ : (0 : ℚ) < ((m * k1 + k0 : ℕ) : ℚ) := by exact_mod_cast hkm1
  have hMH : ((m * h1 + h0 : ℕ) : ℚ) = (m : ℚ) * h1 + h0 := by push_cast; ring
  have hMK : ((m * k1 + k0 : ℕ) : ℚ) = (m : ℚ) * k1 + k0 := by push_cast; ring
  have hprod : (((m * h1 + h0 : ℕ) : ℚ) - ((m * k1 + k0 : ℕ) : ℚ) * f0) *
        ((k1 : ℚ) * x + k0) = x - m ∨
      (((m * h1 + h0 : ℕ) : ℚ) - ((m * k1 + k0 : ℕ) : ℚ) * f0) *
        ((k1 : ℚ) * x + k0) = (m : ℚ) - x := by
    rcases hdet with hd | hd
    · left
      have hdQ : (h1 : ℚ) * k0 + 1 = (h0 : ℚ) * k1 := by exact_mod_cast hd
      rw [hMH, hMK]
      linear_combination ((m : ℚ) - x) * hdQ - ((m : ℚ) * k1 + k0) * hf0x
    · right
      have hdQ : (h0 : ℚ) * k1 + 1 = (h1 : ℚ) * k0 := by exact_mod_cast hd
      rw [hMH, hMK]
      linear_combination (x - (m : ℚ)) * hdQ - ((m : ℚ) * k1 + k0) * hf0x
  have habseq : |((m * h1 + h0 : ℕ) : ℚ) - ((m * k1 + k0 : ℕ) : ℚ) * f0| *
      ((k1 : ℚ) * x + k0) = x - m := by
    rw [← abs_of_pos hkx, ← abs_mul]
    rcases hprod with h | h
    · rw [h]
      exact abs_of_nonneg (by linarith)
    · rw [h, abs_sub_comm]
      exact abs_of_nonneg (by linarith)
  have hdiv : ((m * h1 + h0 : ℕ) : ℚ) / ((m * k1 + k0 : ℕ) : ℚ) - f0 =
      (((m * h1 + h0 : ℕ) : ℚ) - ((m * k1 + k0 : ℕ) : ℚ) * f0) /
        ((m * k1 + k0 : ℕ) : ℚ) := by
    field_simp
  rw [hdiv, abs_div, abs_of_pos hMKQ,
    div_eq_div_iff (ne_of_gt hMKQ) (ne_of_gt (by positivity :
      (0 : ℚ) < ((m * k1 + k0 : ℕ) : ℚ) * ((k1 : ℚ) * x + k0)))]
  linear_combination ((m * k1 + k0 : ℕ) : ℚ) * habseq

/-- Every semiconvergent the scan can accept in the exact phase is a best
approximation: its distance from `f0` is below `1 / km`. -/
theorem ra_semiconv_err_lt (f0 : ℚ) (h0 h1 k0 k1 m : ℕ) (x : ℚ)
    (hk1 : 1 ≤ k1) (hm : 1 ≤ m)
    (hdet : h1 * k0 + 1 = h0 * k1 ∨ h0 * k1 + 1 = h1 * k0)
    (hmx : (m : ℚ) ≤ x)
    (hx1 : (1 : ℚ) ≤ x)
    (hf0x : f0 * ((k1 : ℚ) * x + k0) = (h1 : ℚ) * x + h0) :
    |((m * h1 + h0 : ℕ) : ℚ) / ((m * k1 + k0 : ℕ) : ℚ) - f0| <
      1 / ((m * k1 + k0 : ℕ) : ℚ) := by
  rw [ra_semiconv_err f0 h0 h1 k0 k1 m x hk1 hm hdet hmx hx1 hf0x]
  have hk1Q : (1 : ℚ) ≤ (k1 : ℚ) := by exact_mod_cast hk1
  have hmQ : (1 : ℚ) ≤ (m : ℚ) := by exact_mod_cast hm
  have hk0Q : (0 : ℚ) ≤ (k0 : ℚ) := Nat.cast_nonneg k0
  have hkx : (0 : ℚ) < (k1 : ℚ) * x + k0 := by nlinarith
  have hkm1 : 1 ≤ m * k1 + k0 := by
    have := Nat.mul_le_mul hm hk1
    omega
  have hMKQ : (0 : ℚ) < ((m * k1 + k0 : ℕ) : ℚ) := by exact_mod_cast hkm1
  rw [div_lt_div_iff (by positivity) hMKQ]
  have hx_lt : x - (m : ℚ) < (k1 : ℚ) * x + k0 := by nlinarith
  nlinarith

/-- An accepted candidate keeps the best invariant once the best distance
is below `1 / max_denominator` — valid even for wrapped garbage values. -/
theorem ra_accept_ok (f0 : ℚ) (maxDen hmv kmv : ℕ) (delta : ℚ)
    (hf00 : 0 ≤ f0)
    (hkm : ¬ kmv > maxDen)
    (hB : delta < 1 / (maxDen : ℚ))
    (hdf0 : delta ≤ f0)
    (hacc : |(hmv : ℚ) / (kmv : ℚ) - f0| < delta) :
    ra_ok f0 maxDen hmv kmv (|(hmv : ℚ) / (kmv : ℚ) - f0|) := by
  have hkm1 : 1 ≤ kmv := by
    by_contra hz
    push_neg at hz
    have hz0 : kmv = 0 := by omega
    subst hz0
    rw [Nat.cast_zero, div_zero, zero_sub, abs_neg, abs_of_nonneg hf00] at hacc
    linarith
  refine ⟨hkm1, by omega, rfl, ?_, by linarith⟩
  have h1 : (1 : ℚ) / (maxDen : ℚ) ≤ 1 / (kmv : ℚ) := by
    apply one_div_le_one_div_of_le
    · exact_mod_cast hkm1
    · exact_mod_cast (by omega : kmv ≤ maxDen)
  linarith

/-- Transition algebra, entry form: when the scan's very first candidate
already exceeds `max_denominator` (or has wrapped past `2^32`), the
quantitative invariant forces the best distance below
`1 / max_denominator`. -/
theorem ra_delta_small_entry (maxDen k0 k1 m0 : ℕ) (f x delta : ℚ)
    (hk1 : 1 ≤ k1) (hx1 : 1 < x) (hfx : f * x = 1)
    (hm0 : (m0 : ℚ) ≤ (x + 1) / 2)
    (hbig : (maxDen : ℚ) < (m0 : ℚ) * k1 + k0)
    (hquant : delta * ((k1 : ℚ) * ((k1 : ℚ) + (k0 : ℚ) * f)) ≤ f)
    (hd0 : 0 ≤ delta) (hmd : 1 ≤ maxDen) :
    delta < 1 / (maxDen : ℚ) := by
  have hk1Q : (1 : ℚ) ≤ (k1 : ℚ) := by exact_mod_cast hk1
  have hk0Q : (0 : ℚ) ≤ (k0 : ℚ) := Nat.cast_nonneg k0
  have hmdQ : (1 : ℚ) ≤ (maxDen : ℚ) := by exact_mod_cast hmd
  have hxpos : (0 : ℚ) < x := by linarith
  have hfpos : 0 < f := by nlinarith
  have hexp : ((k1 : ℚ) + k0 * f) * x = (k1 : ℚ) * x + k0 := by
    have h : (k0 : ℚ) * f * x = k0 := by rw [mul_assoc, hfx, mul_one]
    linear_combination h
  have h3 : delta * ((k1 : ℚ) * ((k1 : ℚ) * x + k0)) ≤ 1 := by
    calc delta * ((k1 : ℚ) * ((k1 : ℚ) * x + k0))
        = delta * ((k1 : ℚ) * ((k1 : ℚ) + k0 * f)) * x := by rw [← hexp]; ring
      _ ≤ f * x := mul_le_mul_of_nonneg_right hquant (le_of_lt hxpos)
      _ = 1 := hfx
  have h2 : (maxDen : ℚ) < (k1 : ℚ) * ((k1 : ℚ) * x + k0) := by
    have s1 : (m0 : ℚ) * k1 + k0 ≤ ((x + 1) / 2) * k1 + k0 := by nlinarith
    have s2 : ((x + 1) / 2) * k1 + k0 ≤ x * k1 + k0 := by nlinarith
    have s3 : x * k1 + k0 ≤ (k1 : ℚ) * ((k1 : ℚ) * x + k0) := by nlinarith
    linarith
  rw [lt_div_iff (by linarith : (0 : ℚ) < (maxDen : ℚ))]
  nlinarith

set_option maxHeartbeats 1000000 in
/-- Transition algebra, break form: when the scan breaks right after an
exact semiconvergent `M` whose distance bounds `delta`, the best distance
is below `1 / max_denominator`. -/
theorem ra_delta_small_break (maxDen k0 k1 M an : ℕ) (x delta : ℚ)
    (hk1 : 1 ≤ k1) (han : 1 ≤ an) (hx1 : 1 < x)
    (hanx : (an : ℚ) ≤ x) (hxan1 : x < (an : ℚ) + 1)
    (hM0 : (an + 1) / 2 ≤ M) (hMan : M ≤ an)
    (hkM : M * k1 + k0 ≤ maxDen)
    (hbreak : maxDen < (M + 1) * k1 + k0)
    (hdelta : delta ≤ (x - M) / (((M * k1 + k0 : ℕ) : ℚ) * ((k1 : ℚ) * x + k0)))
    (hd0 : 0 ≤ delta) (hmd : 1 ≤ maxDen) :
    delta < 1 / (maxDen : ℚ) := by
  have hM1 : 1 ≤ M := by omega
  have hkm1 : 1 ≤ M * k1 + k0 := by
    have := Nat.mul_le_mul hM1 hk1
    omega
  have hk1le : k1 ≤ maxDen := by
    have h : k1 ≤ M * k1 := Nat.le_mul_of_pos_left k1 (by omega)
    omega
  have hz : ((maxDen : ℤ)) ≤ ((M : ℤ) * k1 + k0) * k1 := by
    have h1 : ((maxDen : ℤ)) < ((M : ℤ) + 1) * k1 + k0 := by exact_mod_cast hbreak
    have h2 : ((k1 : ℤ)) ≤ (maxDen : ℤ) := by exact_mod_cast hk1le
    have h3 : (1 : ℤ) ≤ (k1 : ℤ) := by exact_mod_cast hk1
    nlinarith [mul_nonneg (sub_nonneg.2 h3) (sub_nonneg.2 h2)]
  have hprod1 : (maxDen : ℚ) ≤ ((M * k1 + k0 : ℕ) : ℚ) * k1 := by
    have : ((maxDen : ℤ) : ℚ) ≤ ((((M : ℤ) * k1 + k0) * k1 : ℤ) : ℚ) := by
      exact_mod_cast hz
    push_cast at this ⊢
    linarith
  have hk1Q : (1 : ℚ) ≤ (k1 : ℚ) := by exact_mod_cast hk1
  have hk0Q : (0 : ℚ) ≤ (k0 : ℚ) := Nat.cast_nonneg k0
  have hmdQ : (1 : ℚ) ≤ (maxDen : ℚ) := by exact_mod_cast hmd
  have hMKQ : (0 : ℚ) < ((M * k1 + k0 : ℕ) : ℚ) := by exact_mod_cast hkm1
  have hxpos : (0 : ℚ) < x := by linarith
  have hkx : (0 : ℚ) < (k1 : ℚ) * x + k0 := by nlinarith
  have hMhalf : (an : ℚ) ≤ 2 * (M : ℚ) := by
    have h : an ≤ 2 * M := by omega
    exact_mod_cast h
  have hMQ : (1 : ℚ) ≤ (M : ℚ) := by exact_mod_cast hM1
  have hxM : x - (M : ℚ) ≤ (x + 1) / 2 := by
    linarith
  have hkey : (x - (M : ℚ)) * (maxDen : ℚ) <
      ((M * k1 + k0 : ℕ) : ℚ) * ((k1 : ℚ) * x + k0) := by
    have c1 : ((M * k1 + k0 : ℕ) : ℚ) * ((k1 : ℚ) * x + k0) ≥
        ((M * k1 + k0 : ℕ) : ℚ) * ((k1 : ℚ) * x) := by
      nlinarith [mul_nonneg (le_of_lt hMKQ) hk0Q]
    have c2 : ((M * k1 + k0 : ℕ) : ℚ) * ((k1 : ℚ) * x) ≥ (maxDen : ℚ) * x := by
      nlinarith [mul_nonneg (sub_nonneg.2 hprod1) (le_of_lt hxpos)]
    have c3 : (x - (M : ℚ)) * (maxDen : ℚ) < (maxDen : ℚ) * x := by
      nlinarith [mul_pos (by linarith : (0 : ℚ) < (M : ℚ))
        (by linarith : (0 : ℚ) < (maxDen : ℚ))]
    linarith
  have hlt : (x - (M : ℚ)) / (((M * k1 + k0 : ℕ) : ℚ) * ((k1 : ℚ) * x + k0)) <
      1 / (maxDen : ℚ) := by
    rw [div_lt_div_iff (by positivity) (by linarith : (0 : ℚ) < (maxDen : ℚ))]
    linarith [hkey]
  linarith


/-- Once the best distance is below `1 / max_denominator`, the inner scan
preserves the best-approximation invariant, keeps the distance below
`1 / max_denominator`, and never increases it — regardless of any `uint32`
wrapping in the candidates. -/
theorem ra_inner_bphase (f0 : ℚ) (maxDen h0 h1 k0 k1 an : ℕ) (hf00 : 0 ≤ f0) :
    ∀ (fuel m b c : ℕ) (delta : ℚ),
      ra_ok f0 maxDen b c delta → delta < 1 / (maxDen : ℚ) →
      ra_ok f0 maxDen (ra_inner f0 maxDen h0 h1 k0 k1 an fuel m b c delta).1
          (ra_inner f0 maxDen h0 h1 k0 k1 an fuel m b c delta).2.1
          (ra_inner f0 maxDen h0 h1 k0 k1 an fuel m b c delta).2.2 ∧
        (ra_inner f0 maxDen h0 h1 k0 k1 an fuel m b c delta).2.2 <
          1 / (maxDen : ℚ) ∧
        (ra_inner f0 maxDen h0 h1 k0 k1 an fuel m b c delta).2.2 ≤ delta := by
  intro fuel
  induction fuel with
  | zero => exact fun m b c delta hok hB => ⟨hok, hB, le_refl _⟩
  | succ fuel ih =>
    intro m b c delta hok hB
    simp only [ra_inner]
    by_cases hman : m > an
    · rw [if_pos hman]
      exact ⟨hok, hB, le_refl _⟩
    · rw [if_neg hman]
      by_cases hkm : w32 (m * k1 + k0) > maxDen
      · rw [if_pos hkm]
        exact ⟨hok, hB, le_refl _⟩
      · rw [if_neg hkm]
        by_cases hacc : |(w32 (m * h1 + h0) : ℚ) / (w32 (m * k1 + k0) : ℚ) - f0| <
            delta
        · rw [if_pos hacc]
          have hok' := ra_accept_ok f0 maxDen (w32 (m * h1 + h0))
            (w32 (m * k1 + k0)) delta hf00 hkm hB hok.2.2.2.2 hacc
          have hB' : |(w32 (m * h1 + h0) : ℚ) / (w32 (m * k1 + k0) : ℚ) - f0| <
              1 / (maxDen : ℚ) := lt_trans hacc hB
          obtain ⟨h1', h2', h3'⟩ := ih (m + 1) _ _ _ hok' hB'
          exact ⟨h1', h2', le_trans h3' (le_of_lt hacc)⟩
        · rw [if_neg hacc]
          exact ih (m + 1) b c delta hok hB

set_option maxHeartbeats 1000000 in
/-- In-range exact scan: when even the next convergent's denominator
`an·k1 + k0` stays within `max_denominator`, no `uint32` computation
wraps, the scan preserves the best invariant, and it ends no worse than
the new convergent's error. -/
theorem ra_inner_exact_full (f0 : ℚ) (maxDen h0 h1 k0 k1 an : ℕ) (x : ℚ)
    (hmd32 : maxDen < 4294967296)
    (hk1 : 1 ≤ k1)
    (hdet : h1 * k0 + 1 = h0 * k1 ∨ h0 * k1 + 1 = h1 * k0)
    (hhk : (h0 ≤ k0 ∧ h1 ≤ k1) ∨ (h0 = 1 ∧ k0 = 0 ∧ h1 = 0 ∧ k1 = 1))
    (hanx : (an : ℚ) ≤ x) (hx1 : (1 : ℚ) ≤ x)
    (hf0x : f0 * ((k1 : ℚ) * x + k0) = (h1 : ℚ) * x + h0)
    (hkn : an * k1 + k0 ≤ maxDen) :
    ∀ (fuel m b c : ℕ) (delta : ℚ),
      1 ≤ m → m ≤ an → an + 1 ≤ m + fuel →
      ra_ok f0 maxDen b c delta →
      ra_ok f0 maxDen (ra_inner f0 maxDen h0 h1 k0 k1 an fuel m b c delta).1
          (ra_inner f0 maxDen h0 h1 k0 k1 an fuel m b c delta).2.1
          (ra_inner f0 maxDen h0 h1 k0 k1 an fuel m b c delta).2.2 ∧
        (ra_inner f0 maxDen h0 h1 k0 k1 an fuel m b c delta).2.2 ≤
          |((an * h1 + h0 : ℕ) : ℚ) / ((an * k1 + k0 : ℕ) : ℚ) - f0| ∧
        (ra_inner f0 maxDen h0 h1 k0 k1 an fuel m b c delta).2.2 ≤ delta := by
  intro fuel
  induction fuel with
  | zero =>
    intro m b c delta hm1 hman hfuel hok
    exact absurd hfuel (by omega)
  | succ fuel ih =>
    intro m b c delta hm1 hman hfuel hok
    have hkmle : m * k1 + k0 ≤ an * k1 + k0 := by
      have := Nat.mul_le_mul hman (le_refl k1)
      omega
    have hkm_lt : m * k1 + k0 < 4294967296 := by omega
    have hkm_w : w32 (m * k1 + k0) = m * k1 + k0 := Nat.mod_eq_of_lt hkm_lt
    have hkm1 : 1 ≤ m * k1 + k0 := by
      have := Nat.mul_le_mul hm1 hk1
      omega
    have hhm_le : m * h1 + h0 ≤ m * k1 + k0 ∨ m * h1 + h0 = 1 := by
      rcases hhk with ⟨hh0, hh1⟩ | ⟨rfl, rfl, rfl, rfl⟩
      · left
        have := Nat.mul_le_mul (le_refl m) hh1
        omega
      · right
        omega
    have hhm_lt : m * h1 + h0 < 4294967296 := by
      rcases hhm_le with h | h <;> omega
    have hhm_w : w32 (m * h1 + h0) = m * h1 + h0 := Nat.mod_eq_of_lt hhm_lt
    have hmQx : (m : ℚ) ≤ x :=
      le_trans (by exact_mod_cast hman : (m : ℚ) ≤ (an : ℚ)) hanx
    have herr_lt := ra_semiconv_err_lt f0 h0 h1 k0 k1 m x hk1 hm1 hdet hmQx hx1 hf0x
    simp only [ra_inner]
    rw [if_neg (by omega : ¬ m > an), hhm_w, hkm_w,
      if_neg (by omega : ¬ m * k1 + k0 > maxDen)]
    by_cases hacc : |((m * h1 + h0 : ℕ) : ℚ) / ((m * k1 + k0 : ℕ) : ℚ) - f0| <
        delta
    · rw [if_pos hacc]
      have hok' : ra_ok f0 maxDen (m * h1 + h0) (m * k1 + k0)
          (|((m * h1 + h0 : ℕ) : ℚ) / ((m * k1 + k0 : ℕ) : ℚ) - f0|) :=
        ⟨hkm1, by omega, rfl, herr_lt, le_trans (le_of_lt hacc) hok.2.2.2.2⟩
      rcases eq_or_lt_of_le hman with heq | hlt
      · subst heq
        rw [ra_inner_exit f0 maxDen h0 h1 k0 k1 m fuel (m + 1) _ _ _ (by omega)]
        exact ⟨hok', le_refl _, le_of_lt hacc⟩
      · have h := ih (m + 1) (m * h1 + h0) (m * k1 + k0) _ (by omega) (by omega)
          (by omega) hok'
        exact ⟨h.1, h.2.1, le_trans h.2.2 (le_of_lt hacc)⟩
    · rw [if_neg hacc]
      push_neg at hacc
      rcases eq_or_lt_of_le hman with heq | hlt
      · subst heq
        rw [ra_inner_exit f0 maxDen h0 h1 k0 k1 m fuel (m + 1) _ _ _ (by omega)]
        exact ⟨hok, hacc, le_refl _⟩
      · exact ih (m + 1) b c delta (by omega) (by omega) (by omega) hok

set_option maxHeartbeats 1000000 in
/-- Out-of-range exact scan: when the next convergent's denominator
exceeds `max_denominator`, the scan — whether or not any candidate wraps
past `2^32` — preserves the best invariant and leaves the best distance
below `1 / max_denominator`. -/
theorem ra_inner_exact_break (f0 : ℚ) (maxDen h0 h1 k0 k1 an : ℕ) (f x : ℚ)
    (hf00 : 0 ≤ f0)
    (hmd : 1 ≤ maxDen) (hmd32 : maxDen < 4294967296)
    (hk1 : 1 ≤ k1) (han : 1 ≤ an)
    (hdet : h1 * k0 + 1 = h0 * k1 ∨ h0 * k1 + 1 = h1 * k0)
    (hhk : (h0 ≤ k0 ∧ h1 ≤ k1) ∨ (h0 = 1 ∧ k0 = 0 ∧ h1 = 0 ∧ k1 = 1))
    (hanx : (an : ℚ) ≤ x) (hxan1 : x < (an : ℚ) + 1) (hx1 : 1 < x)
    (hfx : f * x = 1)
    (hf0x : f0 * ((k1 : ℚ) * x + k0) = (h1 : ℚ) * x + h0)
    (hknbig : maxDen < an * k1 + k0) :
    ∀ (fuel m b c : ℕ) (delta : ℚ),
      1 ≤ m → m ≤ an → an + 1 ≤ m + fuel →
      ra_ok f0 maxDen b c delta →
      ((m = (an + 1) / 2 ∧ delta * ((k1 : ℚ) * ((k1 : ℚ) + (k0 : ℚ) * f)) ≤ f) ∨
        (∃ M : ℕ, m = M + 1 ∧ (an + 1) / 2 ≤ M ∧ M * k1 + k0 ≤ maxDen ∧
          delta ≤ (x - M) / (((M * k1 + k0 : ℕ) : ℚ) * ((k1 : ℚ) * x + k0)))) →
      ra_ok f0 maxDen (ra_inner f0 maxDen h0 h1 k0 k1 an fuel m b c delta).1
          (ra_inner f0 maxDen h0 h1 k0 k1 an fuel m b c delta).2.1
          (ra_inner f0 maxDen h0 h1 k0 k1 an fuel m b c delta).2.2 ∧
        (ra_inner f0 maxDen h0 h1 k0 k1 an fuel m b c delta).2.2 <
          1 / (maxDen : ℚ) := by
  intro fuel
  induction fuel with
  | zero =>
    intro m b c delta hm1 hman hfuel hok hpre
    exact absurd hfuel (by omega)
  | succ fuel ih =>
    intro m b c delta hm1 hman hfuel hok hpre
    have hd0 : 0 ≤ delta := by
      rw [hok.2.2.1]
      exact abs_nonneg _
    by_cases hbig : maxDen < m * k1 + k0
    · have hB : delta < 1 / (maxDen : ℚ) := by
        rcases hpre with ⟨hm0, hquant⟩ | ⟨M, hmM, hM0, hkM, hdel⟩
        · refine ra_delta_small_entry maxDen k0 k1 m f x delta hk1 hx1 hfx ?_ ?_
            hquant hd0 hmd
          · have h2m : 2 * m ≤ an + 1 := by omega
            have h2mQ : 2 * (m : ℚ) ≤ (an : ℚ) + 1 := by exact_mod_cast h2m
            linarith
          · calc (maxDen : ℚ) < ((m * k1 + k0 : ℕ) : ℚ) := by exact_mod_cast hbig
              _ = (m : ℚ) * (k1 : ℚ) + (k0 : ℚ) := by push_cast; ring
        · refine ra_delta_small_break maxDen k0 k1 M an x delta hk1 han hx1 hanx
            hxan1 hM0 (by omega) hkM ?_ hdel hd0 hmd
          rw [← hmM]
          exact hbig
      by_cases hw : m * k1 + k0 < 4294967296
      · have hkm_w : w32 (m * k1 + k0) = m * k1 + k0 := Nat.mod_eq_of_lt hw
        simp only [ra_inner]
        rw [if_neg (by omega : ¬ m > an), hkm_w, if_pos hbig]
        exact ⟨hok, hB⟩
      · obtain ⟨hok', hB', _⟩ := ra_inner_bphase f0 maxDen h0 h1 k0 k1 an hf00
          (fuel + 1) m b c delta hok hB
        exact ⟨hok', hB'⟩
    · push_neg at hbig
      have hw : m * k1 + k0 < 4294967296 := by omega
      have hkm_w : w32 (m * k1 + k0) = m * k1 + k0 := Nat.mod_eq_of_lt hw
      have hmlt : m < an := by
        rcases eq_or_lt_of_le hman with heq | h
        · exfalso
          rw [heq] at hbig
          omega
        · exact h
      have hkm1 : 1 ≤ m * k1 + k0 := by
        have := Nat.mul_le_mul hm1 hk1
        omega
      have hhm_le : m * h1 + h0 ≤ m * k1 + k0 ∨ m * h1 + h0 = 1 := by
        rcases hhk with ⟨hh0, hh1⟩ | ⟨rfl, rfl, rfl, rfl⟩
        · left
          have := Nat.mul_le_mul (le_refl m) hh1
          omega
        · right
          omega
      have hhm_lt : m * h1 + h0 < 4294967296 := by
        rcases hhm_le with h | h <;> omega
      have hhm_w : w32 (m * h1 + h0) = m * h1 + h0 := Nat.mod_eq_of_lt hhm_lt
      have hmQx : (m : ℚ) ≤ x :=
        le_trans (by exact_mod_cast hman : (m : ℚ) ≤ (an : ℚ)) hanx
      have herr_eq := ra_semiconv_err f0 h0 h1 k0 k1 m x hk1 hm1 hdet hmQx
        (le_of_lt hx1) hf0x
      have herr_lt := ra_semiconv_err_lt f0 h0 h1 k0 k1 m x hk1 hm1 hdet hmQx
        (le_of_lt hx1) hf0x
      have hM0' : (an + 1) / 2 ≤ m := by
        rcases hpre with ⟨hm0, _⟩ | ⟨M, hmM, hM0, _, _⟩ <;> omega
      simp only [ra_inner]
      rw [if_neg (by omega : ¬ m > an), hhm_w, hkm_w,
        if_neg (by omega : ¬ m * k1 + k0 > maxDen)]
      by_cases hacc : |((m * h1 + h0 : ℕ) : ℚ) / ((m * k1 + k0 : ℕ) : ℚ) - f0| <
          delta
      · rw [if_pos hacc]
        have hok' : ra_ok f0 maxDen (m * h1 + h0) (m * k1 + k0)
            (|((m * h1 + h0 : ℕ) : ℚ) / ((m * k1 + k0 : ℕ) : ℚ) - f0|) :=
          ⟨hkm1, by omega, rfl, herr_lt, le_trans (le_of_lt hacc) hok.2.2.2.2⟩
        exact ih (m + 1) _ _ _ (by omega) (by omega) (by omega) hok'
          (Or.inr ⟨m, rfl, hM0', hbig, le_of_eq herr_eq⟩)
      · rw [if_neg hacc]
        push_neg at hacc
        exact ih (m + 1) b c delta (by omega) (by omega) (by omega) hok
          (Or.inr ⟨m, rfl, hM0', hbig, le_trans hacc (le_of_eq herr_eq)⟩)

/-- One unfolding of the outer loop when the remaining fractional part is
still above `epsilon`. -/
theorem ra_loop_step (f0 : ℚ) (maxDen n : ℕ) (st : RAState)
    (h : ¬ st.f ≤ 1 / 100000) :
    ra_loop f0 maxDen (n + 1) st =
      ra_loop f0 maxDen n
        ⟨1 / st.f - ((⌊1 / st.f⌋).toNat : ℚ), st.h1,
         w32 ((⌊1 / st.f⌋).toNat * st.h1 + st.h0), st.k1,
         w32 ((⌊1 / st.f⌋).toNat * st.k1 + st.k0),
         (ra_inner f0 maxDen st.h0 st.h1 st.k0 st.k1 (⌊1 / st.f⌋).toNat
           ((⌊1 / st.f⌋).toNat + 1 - ((⌊1 / st.f⌋).toNat + 1) / 2)
           (((⌊1 / st.f⌋).toNat + 1) / 2) st.b st.c st.delta).1,
         (ra_inner f0 maxDen st.h0 st.h1 st.k0 st.k1 (⌊1 / st.f⌋).toNat
           ((⌊1 / st.f⌋).toNat + 1 - ((⌊1 / st.f⌋).toNat + 1) / 2)
           (((⌊1 / st.f⌋).toNat + 1) / 2) st.b st.c st.delta).2.1,
         (ra_inner f0 maxDen st.h0 st.h1 st.k0 st.k1 (⌊1 / st.f⌋).toNat
           ((⌊1 / st.f⌋).toNat + 1 - ((⌊1 / st.f⌋).toNat + 1) / 2)
           (((⌊1 / st.f⌋).toNat + 1) / 2) st.b st.c st.delta).2.2⟩ := by
  rw [ra_loop, if_neg h]

set_option maxHeartbeats 1600000 in
/-- The full loop invariant is inductive: from any state satisfying it,
the outer loop ends with the best-approximation invariant intact. -/
theorem ra_loop_uinv (f0 : ℚ) (maxDen : ℕ) (hmd : 1 ≤ maxDen)
    (hmd32 : maxDen < 4294967296) (hf00 : 0 ≤ f0) :
    ∀ (n : ℕ) (st : RAState), ra_uinv f0 maxDen st →
      ra_ok f0 maxDen (ra_loop f0 maxDen n st).b (ra_loop f0 maxDen n st).c
        (ra_loop f0 maxDen n st).delta := by
  intro n
  induction n with
  | zero => exact fun st h => h.2.2.1
  | succ n ih =>
    intro st h
    obtain ⟨hf0n, hf1, hok, hphase⟩ := h
    by_cases hstop : st.f ≤ 1 / 100000
    · rw [ra_loop, if_pos hstop]
      exact hok
    · rw [ra_loop_step f0 maxDen n st hstop]
      push_neg at hstop
      have hfpos : 0 < st.f := lt_trans (by norm_num) hstop
      set x := 1 / st.f with hx_def
      set an := (⌊x⌋).toNat with han_def
      have hxpos : (0 : ℚ) < x := by
        rw [hx_def]
        positivity
      have hx1 : 1 < x := by
        rw [hx_def, lt_div_iff hfpos]
        linarith
      have hfx : st.f * x = 1 := by
        rw [hx_def]
        exact mul_one_div_cancel (ne_of_gt hfpos)
      have hfl0 : 0 ≤ ⌊x⌋ := Int.floor_nonneg.mpr (le_of_lt hxpos)
      have hfl1 : 1 ≤ ⌊x⌋ := Int.le_floor.mpr (by exact_mod_cast le_of_lt hx1)
      have han1 : 1 ≤ an := by
        rw [han_def]
        omega
      have hanQ : ((an : ℕ) : ℚ) = ((⌊x⌋ : ℤ) : ℚ) := by
        rw [han_def]
        exact_mod_cast congrArg (fun z : ℤ => (z : ℚ)) (Int.toNat_of_nonneg hfl0)
      have hanx : (an : ℚ) ≤ x := by
        rw [hanQ]
        exact Int.floor_le x
      have hxan1 : x < (an : ℚ) + 1 := by
        rw [hanQ]
        exact Int.lt_floor_add_one x
      have hfn0 : 0 ≤ x - (an : ℚ) := by linarith
      have hfn1 : x - (an : ℚ) < 1 := by linarith
      rcases hphase with hB | hex
      · obtain ⟨hok', hB', _⟩ := ra_inner_bphase f0 maxDen st.h0 st.h1 st.k0
          st.k1 an hf00 (an + 1 - (an + 1) / 2) ((an + 1) / 2) st.b st.c
          st.delta hok hB
        exact ih _ ⟨hfn0, hfn1, hok', Or.inl hB'⟩
      · obtain ⟨hIdF, hdet, hk1, hhk, hquant⟩ := hex
        have hf0x : f0 * ((st.k1 : ℚ) * x + st.k0) = (st.h1 : ℚ) * x + st.h0 := by
          linear_combination x * hIdF - (f0 * (st.k0 : ℚ) - (st.h0 : ℚ)) * hfx
        by_cases hkn : an * st.k1 + st.k0 ≤ maxDen
        · obtain ⟨hok', hle_err, _⟩ := ra_inner_exact_full f0 maxDen st.h0 st.h1
            st.k0 st.k1 an x hmd32 hk1 hdet hhk hanx (le_of_lt hx1) hf0x hkn
            (an + 1 - (an + 1) / 2) ((an + 1) / 2) st.b st.c st.delta
            (by omega) (by omega) (by omega) hok
          have hknlt : an * st.k1 + st.k0 < 4294967296 := by omega
          have hkn_w : w32 (an * st.k1 + st.k0) = an * st.k1 + st.k0 :=
            Nat.mod_eq_of_lt hknlt
          have hhn_le : an * st.h1 + st.h0 ≤ an * st.k1 + st.k0 ∨
              an * st.h1 + st.h0 = 1 := by
            rcases hhk with ⟨hh0, hh1⟩ | ⟨h0e, k0e, h1e, k1e⟩
            · left
              have := Nat.mul_le_mul (le_refl an) hh1
              omega
            · right
              rw [h0e, h1e]
              omega
          have hhnlt : an * st.h1 + st.h0 < 4294967296 := by
            rcases hhn_le with h | h <;> omega
          have hhn_w : w32 (an * st.h1 + st.h0) = an * st.h1 + st.h0 :=
            Nat.mod_eq_of_lt hhnlt
          rw [hhn_w, hkn_w]
          have e1 : f0 * (((an * st.k1 + st.k0 : ℕ) : ℚ) +
                (st.k1 : ℚ) * (x - (an : ℚ))) =
              ((an * st.h1 + st.h0 : ℕ) : ℚ) + (st.h1 : ℚ) * (x - (an : ℚ)) := by
            push_cast
            linear_combination hf0x
          have e2 : (an * st.h1 + st.h0) * st.k1 + 1 =
                st.h1 * (an * st.k1 + st.k0) ∨
              st.h1 * (an * st.k1 + st.k0) + 1 =
                (an * st.h1 + st.h0) * st.k1 := by
            rcases hdet with hd | hd
            · right
              have hdZ : (st.h1 : ℤ) * st.k0 + 1 = (st.h0 : ℤ) * st.k1 := by
                exact_mod_cast hd
              zify
              linear_combination hdZ
            · left
              have hdZ : (st.h0 : ℤ) * st.k1 + 1 = (st.h1 : ℤ) * st.k0 := by
                exact_mod_cast hd
              zify
              linear_combination hdZ
          have e3 : 1 ≤ an * st.k1 + st.k0 := by
            have := Nat.mul_le_mul han1 hk1
            omega
          have e4 : (st.h1 ≤ st.k1 ∧
                an * st.h1 + st.h0 ≤ an * st.k1 + st.k0) ∨
              (st.h1 = 1 ∧ st.k1 = 0 ∧ an * st.h1 + st.h0 = 0 ∧
                an * st.k1 + st.k0 = 1) := by
            left
            constructor
            · rcases hhk with ⟨_, hh1⟩ | ⟨_, _, h1e, k1e⟩
              · exact hh1
              · rw [h1e, k1e]
                omega
            · rcases hhk with ⟨hh0, hh1⟩ | ⟨h0e, k0e, h1e, k1e⟩
              · have := Nat.mul_le_mul (le_refl an) hh1
                omega
              · rw [h0e, k0e, h1e, k1e]
                omega
          have herr_eq := ra_semiconv_err f0 st.h0 st.h1 st.k0 st.k1 an x hk1
            han1 hdet hanx (le_of_lt hx1) hf0x
          have hknQ : (0 : ℚ) < ((an * st.k1 + st.k0 : ℕ) : ℚ) := by
            exact_mod_cast e3
          have hkxQ : (0 : ℚ) < (st.k1 : ℚ) * x + st.k0 := by
            have h1q : (1 : ℚ) ≤ (st.k1 : ℚ) := by exact_mod_cast hk1
            have h0q : (0 : ℚ) ≤ (st.k0 : ℚ) := Nat.cast_nonneg st.k0
            nlinarith
          have hDpos : (0 : ℚ) < ((an * st.k1 + st.k0 : ℕ) : ℚ) *
              ((st.k1 : ℚ) * x + st.k0) := mul_pos hknQ hkxQ
          have hle2 := herr_eq ▸ hle_err
          have hsub : ((an * st.k1 + st.k0 : ℕ) : ℚ) +
              (st.k1 : ℚ) * (x - (an : ℚ)) = (st.k1 : ℚ) * x + st.k0 := by
            push_cast
            ring
          have e5 : (ra_inner f0 maxDen st.h0 st.h1 st.k0 st.k1 an
                (an + 1 - (an + 1) / 2) ((an + 1) / 2) st.b st.c st.delta).2.2 *
                (((an * st.k1 + st.k0 : ℕ) : ℚ) *
                  (((an * st.k1 + st.k0 : ℕ) : ℚ) +
                    (st.k1 : ℚ) * (x - (an : ℚ)))) ≤ x - (an : ℚ) := by
            calc (ra_inner f0 maxDen st.h0 st.h1 st.k0 st.k1 an
                  (an + 1 - (an + 1) / 2) ((an + 1) / 2) st.b st.c
                  st.delta).2.2 *
                  (((an * st.k1 + st.k0 : ℕ) : ℚ) *
                    (((an * st.k1 + st.k0 : ℕ) : ℚ) +
                      (st.k1 : ℚ) * (x - (an : ℚ)))) =
                (ra_inner f0 maxDen st.h0 st.h1 st.k0 st.k1 an
                  (an + 1 - (an + 1) / 2) ((an + 1) / 2) st.b st.c
                  st.delta).2.2 *
                  (((an * st.k1 + st.k0 : ℕ) : ℚ) *
                    ((st.k1 : ℚ) * x + st.k0)) := by rw [hsub]
              _ ≤ x - (an : ℚ) := (le_div_iff hDpos).mp hle2
          exact ih _ ⟨hfn0, hfn1, hok', Or.inr ⟨e1, e2, e3, e4, e5⟩⟩
        · push_neg at hkn
          obtain ⟨hok', hB'⟩ := ra_inner_exact_break f0 maxDen st.h0 st.h1
            st.k0 st.k1 an st.f x hf00 hmd hmd32 hk1 han1 hdet hhk hanx hxan1
            hx1 hfx hf0x hkn (an + 1 - (an + 1) / 2) ((an + 1) / 2) st.b st.c
            st.delta (by omega) (by omega) (by omega) hok
            (Or.inl ⟨rfl, hquant⟩)
          exact ih _ ⟨hfn0, hfn1, hok', Or.inl hB'⟩

/-- The unconditional best-approximation guarantee of
`rational_approximation`: for any rational input and any positive
`max_denominator` below `2^32`, the returned fraction `b / c` has
`1 ≤ c ≤ max_denominator` and lies within `1 / c` of the input's
fractional part — even when intermediate `uint32` convergents wrap. -/
theorem rational_approximation_bound (value : ℚ) (maxDen : ℕ)
    (hmd : 1 ≤ maxDen) (hmd32 : maxDen < 4294967296) :
    1 ≤ (rational_approximation value maxDen).2.2 ∧
    (rational_approximation value maxDen).2.2 ≤ maxDen ∧
    |((rational_approximation value maxDen).2.1 : ℚ) /
        ((rational_approximation value maxDen).2.2 : ℚ) -
        (value - ⌊value⌋)| <
      1 / ((rational_approximation value maxDen).2.2 : ℚ) := by
  have hf00 : (0 : ℚ) ≤ value - ⌊value⌋ := sub_nonneg.mpr (Int.floor_le value)
  have hf01 : value - ⌊value⌋ < 1 := by
    have := Int.lt_floor_add_one value
    linarith
  have hok0 : ra_ok (value - ⌊value⌋) maxDen 0 1 (value - ⌊value⌋) := by
    refine ⟨le_refl 1, hmd, ?_, ?_, le_refl _⟩
    · rw [Nat.cast_zero, Nat.cast_one, zero_div, zero_sub, abs_neg,
        abs_of_nonneg hf00]
    · rw [Nat.cast_one, div_one]
      exact hf01
  have q1 : (value - ⌊value⌋) * (((1 : ℕ) : ℚ) +
        ((0 : ℕ) : ℚ) * (value - ⌊value⌋)) =
      ((0 : ℕ) : ℚ) + ((1 : ℕ) : ℚ) * (value - ⌊value⌋) := by
    push_cast
    ring
  have q2 : (0 : ℕ) * 0 + 1 = 1 * 1 ∨ (1 : ℕ) * 1 + 1 = 0 * 0 :=
    Or.inl (by norm_num)
  have q3 : (1 : ℕ) ≤ 1 := le_refl 1
  have q4 : ((1 : ℕ) ≤ 0 ∧ (0 : ℕ) ≤ 1) ∨
      ((1 : ℕ) = 1 ∧ (0 : ℕ) = 0 ∧ (0 : ℕ) = 0 ∧ (1 : ℕ) = 1) :=
    Or.inr ⟨rfl, rfl, rfl, rfl⟩
  have q5 : (value - ⌊value⌋) * (((1 : ℕ) : ℚ) *
        (((1 : ℕ) : ℚ) + ((0 : ℕ) : ℚ) * (value - ⌊value⌋))) ≤
      value - ⌊value⌋ := by
    push_cast
    norm_num
  have h := ra_loop_uinv (value - ⌊value⌋) maxDen hmd hmd32 hf00 100
    ⟨value - ⌊value⌋, 1, 0, 0, 1, 0, 1, value - ⌊value⌋⟩
    ⟨hf00, hf01, hok0, Or.inr ⟨q1, q2, q3, q4, q5⟩⟩
  have heq : rational_approximation value maxDen =
      ((⌊value⌋).toNat,
        (ra_loop (value - ⌊value⌋) maxDen 100
          ⟨value - ⌊value⌋, 1, 0, 0, 1, 0, 1, value - ⌊value⌋⟩).b,
        (ra_loop (value - ⌊value⌋) maxDen 100
          ⟨value - ⌊value⌋, 1, 0, 0, 1, 0, 1, value - ⌊value⌋⟩).c) := rfl
  obtain ⟨hc1, hc2, hd, hdc, hdf⟩ := h
  rw [heq]
  refine ⟨hc1, hc2, ?_⟩
  rw [← hd]
  exact hdc

/-- At 32 MHz the feedback fraction chosen by the code is
`33 + 46461/254012 ≈ 33.182909`: it differs from the specification's
stated `33.185185` by more than `1/500`, far above the guaranteed
`1/c` error bound, so the example value in the claim is wrong. -/
theorem C1_feedback_example_counterexample :
    clock_source_set_clock SI5351_FREQ SI5351_FREQ_CORR 32000000 =
      some ⟨0, 28, 33, 46461, 254012⟩ ∧
    ¬(|((33 : ℚ) + 46461 / 254012) - 33185185 / 1000000| < 1 / 500) :=
  ⟨set_clock_32MHz_eval, by with_unfolding_all decide⟩

/-- C1 (amended): for every frequency in `[1 Hz, 100 MHz]` at which
`set_clock` succeeds, the chosen parameters satisfy `4 ≤ OUT ≤ 2048`,
`OUT` even, `OUT · f_r ≤ 900 MHz`, `1 ≤ c ≤ 1048575`, and
`|a + b/c − FB| < 1/c`; at 32 MHz the choice is `OUT = 28`, `R = 0`, and
`(a, b, c) = (33, 46461, 254012)`, i.e. `a + b/c ≈ 33.182909` — not the
claimed `33.185185`, which omits the frequency-correction factor. -/
theorem C1_set_clock_params_amended :
    (∀ (f : ℚ) (p : ClockParams), 1 ≤ f → f ≤ 100000000 →
      clock_source_set_clock SI5351_FREQ SI5351_FREQ_CORR f = some p →
      4 ≤ p.output_ms ∧ p.output_ms ≤ 2048 ∧ p.output_ms % 2 = 0 ∧
      (p.output_ms : ℚ) * (rdiv_loop 9 f 0).1 ≤ 900000000 ∧
      1 ≤ p.c ∧ p.c ≤ 1048575 ∧
      |((p.a : ℚ) + (p.b : ℚ) / (p.c : ℚ)) -
          set_clock_feedback SI5351_FREQ SI5351_FREQ_CORR f| < 1 / (p.c : ℚ)) ∧
    clock_source_set_clock SI5351_FREQ SI5351_FREQ_CORR 32000000 =
      some ⟨0, 28, 33, 46461, 254012⟩ := by
  constructor
  · intro f p hf1 hf2 hp
    unfold clock_source_set_clock at hp
    dsimp only at hp
    unfold set_clock_feedback
    dsimp only
    by_cases hr : (rdiv_loop 9 f 0).1 < 1000000
    · rw [if_pos hr] at hp
      exact absurd hp (by simp)
    · rw [if_neg hr] at hp
      by_cases hom : ((⌊SI5351_MAX_VCO_FREQ / (rdiv_loop 9 f 0).1⌋).toNat &&&
          4294967294) < 4 ∨
          ((⌊SI5351_MAX_VCO_FREQ / (rdiv_loop 9 f 0).1⌋).toNat &&&
            4294967294) > 2048
      · rw [if_pos hom] at hp
        exact absurd hp (by simp)
      · rw [if_neg hom] at hp
        have hpeq : p = ⟨(rdiv_loop 9 f 0).2,
            (⌊SI5351_MAX_VCO_FREQ / (rdiv_loop 9 f 0).1⌋).toNat &&& 4294967294,
            (rational_approximation
              ((rdiv_loop 9 f 0).1 *
                  ((⌊SI5351_MAX_VCO_FREQ / (rdiv_loop 9 f 0).1⌋).toNat &&&
                    4294967294 : ℕ) /
                (SI5351_FREQ / SI5351_FREQ_CORR)) SI5351_MAX_DENOMINATOR).1,
            (rational_approximation
              ((rdiv_loop 9 f 0).1 *
                  ((⌊SI5351_MAX_VCO_FREQ / (rdiv_loop 9 f 0).1⌋).toNat &&&
                    4294967294 : ℕ) /
                (SI5351_FREQ / SI5351_FREQ_CORR)) SI5351_MAX_DENOMINATOR).2.1,
            (rational_approximation
              ((rdiv_loop 9 f 0).1 *
                  ((⌊SI5351_MAX_VCO_FREQ / (rdiv_loop 9 f 0).1⌋).toNat &&&
                    4294967294 : ℕ) /
                (SI5351_FREQ / SI5351_FREQ_CORR)) SI5351_MAX_DENOMINATOR).2.2⟩ :=
          (Option.some.inj hp).symm
        subst hpeq
        push_neg at hom
        dsimp only
        have hr' : (1000000 : ℚ) ≤ (rdiv_loop 9 f 0).1 := not_lt.mp hr
        have hrpos : (0 : ℚ) < (rdiv_loop 9 f 0).1 := by linarith
        have homle : ((⌊SI5351_MAX_VCO_FREQ / (rdiv_loop 9 f 0).1⌋).toNat &&&
            4294967294) ≤ (⌊SI5351_MAX_VCO_FREQ / (rdiv_loop 9 f 0).1⌋).toNat :=
          Nat.and_le_left
        have hfloornn : 0 ≤ ⌊SI5351_MAX_VCO_FREQ / (rdiv_loop 9 f 0).1⌋ :=
          Int.floor_nonneg.mpr (div_nonneg (by norm_num [SI5351_MAX_VCO_FREQ])
            (le_of_lt hrpos))
        refine ⟨by omega, by omega, ?_, ?_, ?_, ?_, ?_⟩
        · have hbit : (((⌊SI5351_MAX_VCO_FREQ / (rdiv_loop 9 f 0).1⌋).toNat &&&
              4294967294)).testBit 0 = false := by
            rw [Nat.testBit_land]
            simp [show (4294967294 : ℕ).testBit 0 = false from by decide]
          rw [Nat.testBit_zero] at hbit
          have h2 : (((⌊SI5351_MAX_VCO_FREQ / (rdiv_loop 9 f 0).1⌋).toNat &&&
              4294967294)) % 2 ≠ 1 := by simpa using hbit
          omega
        · have hc1 : (((⌊SI5351_MAX_VCO_FREQ / (rdiv_loop 9 f 0).1⌋).toNat &&&
              4294967294 : ℕ) : ℚ) ≤
              (((⌊SI5351_MAX_VCO_FREQ / (rdiv_loop 9 f 0).1⌋).toNat : ℕ) : ℚ) := by
            exact_mod_cast homle
          have hc2 : (((⌊SI5351_MAX_VCO_FREQ / (rdiv_loop 9 f 0).1⌋).toNat : ℕ) : ℚ) =
              ((⌊SI5351_MAX_VCO_FREQ / (rdiv_loop 9 f 0).1⌋ : ℤ) : ℚ) := by
            exact_mod_cast congrArg (fun z : ℤ => (z : ℚ))
              (Int.toNat_of_nonneg hfloornn)
          have hc3 : ((⌊SI5351_MAX_VCO_FREQ / (rdiv_loop 9 f 0).1⌋ : ℤ) : ℚ) ≤
              SI5351_MAX_VCO_FREQ / (rdiv_loop 9 f 0).1 := Int.floor_le _
          have hle : (((⌊SI5351_MAX_VCO_FREQ / (rdiv_loop 9 f 0).1⌋).toNat &&&
              4294967294 : ℕ) : ℚ) ≤ SI5351_MAX_VCO_FREQ / (rdiv_loop 9 f 0).1 := by
            rw [hc2] at hc1
            exact le_trans hc1 hc3
          have := (le_div_iff hrpos).mp hle
          simpa [SI5351_MAX_VCO_FREQ] using this
        · exact (rational_approximation_bound _ SI5351_MAX_DENOMINATOR
            (by norm_num [SI5351_MAX_DENOMINATOR])
            (by norm_num [SI5351_MAX_DENOMINATOR])).1
        · exact (rational_approximation_bound _ SI5351_MAX_DENOMINATOR
            (by norm_num [SI5351_MAX_DENOMINATOR])
            (by norm_num [SI5351_MAX_DENOMINATOR])).2.1
        · set FB := (rdiv_loop 9 f 0).1 *
              (((⌊SI5351_MAX_VCO_FREQ / (rdiv_loop 9 f 0).1⌋).toNat &&&
                4294967294 : ℕ) : ℚ) / (SI5351_FREQ / SI5351_FREQ_CORR) with hFBdef
          have hbest := (rational_approximation_bound FB SI5351_MAX_DENOMINATOR
            (by norm_num [SI5351_MAX_DENOMINATOR])
            (by norm_num [SI5351_MAX_DENOMINATOR])).2.2
          have hFBnn : 0 ≤ FB := by
            rw [hFBdef]
            exact div_nonneg (mul_nonneg (le_of_lt hrpos) (Nat.cast_nonneg _))
              (by norm_num [SI5351_FREQ, SI5351_FREQ_CORR])
          have ha : (((rational_approximation FB SI5351_MAX_DENOMINATOR).1 : ℕ) : ℚ) =
              ((⌊FB⌋ : ℤ) : ℚ) := by
            have h1 : (rational_approximation FB SI5351_MAX_DENOMINATOR).1 =
                (⌊FB⌋).toNat := rfl
            rw [h1]
            exact_mod_cast congrArg (fun z : ℤ => (z : ℚ))
              (Int.toNat_of_nonneg (Int.floor_nonneg.mpr hFBnn))
          rw [show ∀ u v w : ℚ, u + v - w = v - (w - u) from fun u v w => by ring]
          rw [ha]
          exact hbest
  · exact set_clock_32MHz_eval

theorem C1_set_clock_params_amended_witness :
    4 ≤ (28 : ℕ) ∧ (28 : ℕ) ≤ 2048 ∧ (28 : ℕ) % 2 = 0 ∧
    ((28 : ℕ) : ℚ) * (rdiv_loop 9 32000000 0).1 ≤ 900000000 ∧
    1 ≤ (254012 : ℕ) ∧ (254012 : ℕ) ≤ 1048575 ∧
    |(((33 : ℕ) : ℚ) + ((46461 : ℕ) : ℚ) / ((254012 : ℕ) : ℚ)) -
        set_clock_feedback SI5351_FREQ SI5351_FREQ_CORR 32000000| <
      1 / ((254012 : ℕ) : ℚ) :=
  C1_set_clock_params_amended.1 32000000 ⟨0, 28, 33, 46461, 254012⟩
    (by norm_num) (by norm_num) set_clock_32MHz_eval

end RF103
